import Mathlib

/-!
Verification of the masking engine of `src/maskforge.py` (class `Scrubber`)
against the repository specification.

Strings are modelled as `List Char`.  Python dicts (`self.mapping`,
`self.reverse`) are modelled as association lists kept in insertion order,
matching Python's insertion-ordered dicts.  The fixed token regex
`\[MASK_[0-9A-F]{8}\]` is modelled by the predicate `isMaskTok` on
15-character windows, and the left-to-right non-overlapping scanning of
Python's `re` module (used by `re.split`, `re.findall` and `re.sub` on this
fixed-length pattern, and by the alternation of escaped sensitive words) is
modelled by fuelled structural recursion (`splitMasksF`, `subWordsF`,
`decodeTextF`) with fuel equal to the input length, so that all definitions
compute by kernel reduction.
-/

namespace Maskforge

/-- The character class `[0-9A-F]` of the token pattern (uppercase hex digits). -/
def isHexU (c : Char) : Bool :=
  ('0' ≤ c && c ≤ '9') || ('A' ≤ c && c ≤ 'F')

/-- Exact lexical shape of a token: the regex `\[MASK_[0-9A-F]{8}\]` compiled as
`mask_pat` in `Scrubber._enc` (src/maskforge.py:87) and `pat` in
`Scrubber._dec` (src/maskforge.py:118).  A token is exactly 15 characters. -/
def isMaskTok : List Char → Bool
  | c0 :: c1 :: c2 :: c3 :: c4 :: c5 :: c6 :: c7 :: c8 :: c9 :: c10 :: c11 :: c12 :: c13 :: [c14] =>
      c0 == '[' && c1 == 'M' && c2 == 'A' && c3 == 'S' && c4 == 'K' && c5 == '_' &&
      isHexU c6 && isHexU c7 && isHexU c8 && isHexU c9 && isHexU c10 && isHexU c11 &&
      isHexU c12 && isHexU c13 && c14 == ']'
  | _ => false

/-- Fuelled scanner for `mask_pat.split(text)` / `mask_pat.findall(text)`
(src/maskforge.py:97-98): returns the leading non-token segment together with
the list of `(token, following segment)` pairs, scanning left to right for
leftmost non-overlapping matches of the fixed-length token pattern.
The fuel only serves to make the recursion structural; it is irrelevant as
soon as it is at least the length of the input (`splitMasksF_irrel`). -/
def splitMasksF : Nat → List Char → List Char × List (List Char × List Char)
  | fuel, cs =>
    match cs with
    | [] => ([], [])
    | c :: rest =>
      match fuel with
      | 0 => (c :: rest, [])
      | fuel' + 1 =>
        if isMaskTok (List.take 15 (c :: rest)) then
          let r := splitMasksF fuel' (List.drop 15 (c :: rest))
          ([], (List.take 15 (c :: rest), r.1) :: r.2)
        else
          let r := splitMasksF fuel' rest
          (c :: r.1, r.2)

/-- `re.split`/`re.findall` of the token pattern over a text, packaged as
(first segment, list of (mask, following segment)).  The original code's
`parts` list is the first component followed by the second components, and
`masks` is the list of first components of the pairs. -/
def splitMasks (cs : List Char) : List Char × List (List Char × List Char) :=
  splitMasksF cs.length cs

/-- First matching alternative of the alternation regex
`"|".join(re.escape(w) for w in words)` at the current position: Python's
regex alternation tries the alternatives in list order and takes the first
that matches, and an escaped word matches exactly when it is a literal prefix
of the remaining input. -/
def findMatch (ws : List (List Char)) (cs : List Char) : Option (List Char) :=
  ws.find? (fun w => w.isPrefixOf cs)

/-- `self.mapping.get(k, d)` (src/maskforge.py:105) over an association list. -/
def lookupD (m : List (List Char × List Char)) (k d : List Char) : List Char :=
  (m.lookup k).getD d

/-- Fuelled model of `word_pat.sub(repl, part)` (src/maskforge.py:107):
scan left to right; at each position, if some word of `ws` (in order)
matches, emit its replacement `mapping.get(w, w)` and continue after the
match, otherwise copy one character.  Empty matches follow Python ≥3.7
semantics (substitute, then keep the character and advance); they can only
arise from empty words, which `Scrubber.build` never produces. -/
def subWordsF (mp : List (List Char × List Char)) (ws : List (List Char)) :
    Nat → List Char → List Char
  | fuel, cs =>
    match cs with
    | [] =>
      match findMatch ws [] with
      | some w => lookupD mp w w
      | none => []
    | c :: rest =>
      match fuel with
      | 0 => c :: rest
      | fuel' + 1 =>
        match findMatch ws (c :: rest) with
        | some w =>
          if w.isEmpty then
            lookupD mp w w ++ c :: subWordsF mp ws fuel' rest
          else
            lookupD mp w w ++ subWordsF mp ws fuel' (List.drop w.length (c :: rest))
        | none => c :: subWordsF mp ws fuel' rest

/-- `word_pat.sub(repl, part)` with fuel instantiated to the input length. -/
def subWords (mp : List (List Char × List Char)) (ws : List (List Char))
    (cs : List Char) : List Char :=
  subWordsF mp ws cs.length cs

/-- Stable insertion into a length-descending list: elements strictly longer
stay in front, so insertion keeps the original relative order of equal-length
words. -/
def insertDesc (w : List Char) : List (List Char) → List (List Char)
  | [] => [w]
  | v :: vs => if w.length < v.length then v :: insertDesc w vs else w :: v :: vs

/-- `sorted(self.mapping.keys(), key=len, reverse=True)` (src/maskforge.py:94):
Python's sort is stable, and a stable length-descending sort is extensionally
unique, so stable insertion sort models it faithfully. -/
def sortLenDesc : List (List Char) → List (List Char)
  | [] => []
  | w :: ws => insertDesc w (sortLenDesc ws)

/-- The word ↔ token state of `Scrubber.__init__` (src/maskforge.py:67-70):
`mapping : word -> mask`, `reverse : mask -> word`, and the list of saved
JSON snapshot paths. -/
structure Scrubber where
  mapping : List (List Char × List Char)
  reverse : List (List Char × List Char)
  json_paths : List (List Char)

/-- `Scrubber._enc` (src/maskforge.py:80-115): if the mapping is empty,
return the text unchanged; otherwise split the text on existing tokens,
substitute the length-ordered word alternation inside each non-token part,
and reassemble, interleaving the untouched tokens in original order. -/
def Scrubber.enc (s : Scrubber) (text : List Char) : List Char :=
  if s.mapping = [] then text
  else
    let ws := sortLenDesc (s.mapping.map Prod.fst)
    let r := splitMasks text
    subWords s.mapping ws r.1 ++
      (r.2.map (fun q => q.1 ++ subWords s.mapping ws q.2)).flatten

/-- Fuelled model of `pat.sub(lambda m: self.reverse.get(m.group(0),
m.group(0)), text)` (src/maskforge.py:117-119): replace each leftmost
non-overlapping occurrence of the token pattern by its reverse-mapped word,
leaving unknown tokens verbatim. -/
def decodeTextF (rv : List (List Char × List Char)) : Nat → List Char → List Char
  | fuel, cs =>
    match cs with
    | [] => []
    | c :: rest =>
      match fuel with
      | 0 => c :: rest
      | fuel' + 1 =>
        if isMaskTok (List.take 15 (c :: rest)) then
          lookupD rv (List.take 15 (c :: rest)) (List.take 15 (c :: rest)) ++
            decodeTextF rv fuel' (List.drop 15 (c :: rest))
        else c :: decodeTextF rv fuel' rest

/-- `Scrubber._dec` applied to a reverse map, fuel instantiated. -/
def decodeText (rv : List (List Char × List Char)) (text : List Char) : List Char :=
  decodeTextF rv text.length text

/-- `Scrubber._dec` (src/maskforge.py:117-119). -/
def Scrubber.dec (s : Scrubber) (text : List Char) : List Char :=
  decodeText s.reverse text

/-- Python `str.strip()` on a word (src/maskforge.py:74): drop whitespace
from both ends. -/
def trimChars (cs : List Char) : List Char :=
  ((cs.dropWhile Char.isWhitespace).reverse.dropWhile Char.isWhitespace).reverse

/-- `k in d` for an association-list dict. -/
def keyMem {β : Type} (m : List (List Char × β)) (k : List Char) : Bool :=
  m.any (fun p => p.1 == k)

/-- `d[k] = v` on an insertion-ordered dict: an existing key keeps its
position and gets the new value, a new key is appended at the end. -/
def updA {β : Type} (m : List (List Char × β)) (k : List Char) (v : β) :
    List (List Char × β) :=
  if keyMem m k then m.map (fun p => if p.1 == k then (k, v) else p)
  else m ++ [(k, v)]

/-- `Scrubber.build` (src/maskforge.py:72-78): for each word, strip it; if it
is non-empty and not already a key of `mapping`, draw a fresh token and
insert both directions.  `uuid.uuid4().hex[:8].upper()` is modelled by a
token supply `g : Nat → List Char` together with a counter `n` for the next
fresh index; the returned counter says how many tokens were drawn.
A new word is appended to `mapping` (it is not a key there), while
`reverse[m] = w` is a dict store that would overwrite on a token collision. -/
def Scrubber.build (s : Scrubber) (words : List (List Char)) (g : Nat → List Char)
    (n : Nat) : Scrubber × Nat :=
  match words with
  | [] => (s, n)
  | w :: ws =>
    let w' := trimChars w
    if w' ≠ [] ∧ keyMem s.mapping w' = false then
      Scrubber.build
        ⟨s.mapping ++ [(w', g n)], updA s.reverse (g n) w', s.json_paths⟩ ws g (n + 1)
    else Scrubber.build s ws g n

/-! ### JSON snapshots (`Scrubber.save` / `Scrubber.load`) -/

/-- The JSON values `json.dump` / `json.load` traffic in. -/
inductive J where
  | null : J
  | num : Int → J
  | str : List Char → J
  | arr : List J → J
  | obj : List (List Char × J) → J

/-- `d.get(key, default)` on a parsed JSON object. -/
def getJ (fields : List (List Char × J)) (k : List Char) (d : J) : J :=
  (fields.lookup k).getD d

/-- The JSON value written by `Scrubber.save` for one direction of the
bijection: an object whose values are the strings of the dict. -/
def encodeMapJ (m : List (List Char × List Char)) : J :=
  J.obj (m.map (fun p => (p.1, J.str p.2)))

/-- The snapshot content `{"mapping": self.mapping, "reverse": self.reverse}`
written by `Scrubber.save` (src/maskforge.py:126). -/
def saveJson (s : Scrubber) : J :=
  J.obj [("mapping".toList, encodeMapJ s.mapping),
         ("reverse".toList, encodeMapJ s.reverse)]

/-- A mapping store whose values are arbitrary JSON, as produced by
`dict.update` on `json.load` output: `Scrubber.load` performs no validation
of the entry values, so after a `load` the dict values may be any JSON. -/
structure StoreJ where
  mapping : List (List Char × J)
  reverse : List (List Char × J)

/-- `dict.update(adds)` over insertion-ordered association lists. -/
def updJFields (m : List (List Char × J)) (adds : List (List Char × J)) :
    List (List Char × J) :=
  adds.foldl (fun acc kv => updA acc kv.1 kv.2) m

/-- `self.mapping.update(v)` where `v` came out of `json.load`: updating with
a JSON object merges its fields; updating with any other JSON value raises
(scalars and strings are not mappings; Python would also accept an iterable
of key/value pairs, a shape `json.dump` snapshots never contain for this
call, so it is collapsed into the error case here). -/
def applyUpdate (m : List (List Char × J)) : J → Except (List Char) (List (List Char × J))
  | J.obj fields => Except.ok (updJFields m fields)
  | _ => Except.error "TypeError".toList

/-- `Scrubber.load` (src/maskforge.py:131-135) after `json.load` succeeded:
`d.get("mapping", {})` is merged into `mapping` and
`d.get("reverse", d.get("reverse_mapping", {}))` into `reverse`.  A non-object
top level raises (`d.get` does not exist on it).  Mutation is in place, so a
failure in the second update keeps the first update's effect; the result is
the store after whatever mutations happened, plus the error if any. -/
def loadJ (st : StoreJ) (j : J) : StoreJ × Option (List Char) :=
  match j with
  | J.obj fields =>
    match applyUpdate st.mapping (getJ fields "mapping".toList (J.obj [])) with
    | Except.error e => (st, some e)
    | Except.ok m =>
      match applyUpdate st.reverse
          (getJ fields "reverse".toList (getJ fields "reverse_mapping".toList (J.obj []))) with
      | Except.error e => ({ st with mapping := m }, some e)
      | Except.ok r => (⟨m, r⟩, none)
  | _ => (st, some "AttributeError".toList)

/-- The snapshot shape the spec declares (§6): a JSON object carrying a
`mapping` key and a `reverse` key (or the legacy `reverse_mapping`).
Modelled from the spec's words, to compare with what `Scrubber.load`
actually accepts. -/
def validSnapshotSpec : J → Bool
  | J.obj fields =>
      keyMem fields "mapping".toList &&
        (keyMem fields "reverse".toList || keyMem fields "reverse_mapping".toList)
  | _ => false

/-! ### Files, paths and the batch orchestrator -/

/-- Position (from the start) of the last occurrence of `c`, if any. -/
def lastIdx (c : Char) (p : List Char) : Option Nat :=
  match p.reverse.findIdx? (fun d => d == c) with
  | none => none
  | some j => some (p.length - 1 - j)

/-- `posixpath.split(p)` head before stripping: everything up to and
including the last slash (empty if there is no slash). -/
def splitSlash (p : List Char) : List Char × List Char :=
  match lastIdx '/' p with
  | none => ([], p)
  | some i => (p.take (i + 1), p.drop (i + 1))

/-- `os.path.basename(p)`. -/
def basenameCs (p : List Char) : List Char := (splitSlash p).2

/-- `os.path.dirname(p)`: the head of the split, with trailing slashes
stripped unless it consists only of slashes. -/
def dirnameCs (p : List Char) : List Char :=
  let head := (splitSlash p).1
  if head ≠ [] ∧ head.any (fun c => c != '/') then
    (head.reverse.dropWhile (fun c => c == '/')).reverse
  else head

/-- `os.path.splitext(p)` (CPython `genericpath._splitext`): split at the
last dot if it comes after the last slash and the filename has a non-dot
character before it; otherwise the extension is empty. -/
def splitExtCs (p : List Char) : List Char × List Char :=
  match lastIdx '.' p with
  | none => (p, [])
  | some d =>
    let start := match lastIdx '/' p with
      | none => 0
      | some sp => sp + 1
    if start ≤ d ∧ ((p.drop start).take (d - start)).any (fun c => c != '.') then
      (p.take d, p.drop d)
    else (p, [])

/-- `os.path.join(d, b)` for the simple shapes the tool produces (posix). -/
def joinCs (d b : List Char) : List Char :=
  if b.head? = some '/' then b
  else if d = [] ∨ d.getLast? = some '/' then d ++ b
  else d ++ '/' :: b

/-- `MAPPING_SUFFIX = "_mask_mapping.json"` (src/maskforge.py:35). -/
def MAPPING_SUFFIX : List Char := "_mask_mapping.json".toList

/-- The snapshot path computed by `Scrubber.save` (src/maskforge.py:122-124)
next to an output document path. -/
def mapPathOf (outPath : List Char) : List Char :=
  let d := if dirnameCs outPath = [] then ['.'] else dirnameCs outPath
  joinCs d ((splitExtCs (basenameCs outPath)).1 ++ MAPPING_SUFFIX)

/-- mask / unmask, the two values the GUI passes as `mode` ("enc" / "dec"). -/
inductive Mode where
  | enc : Mode
  | dec : Mode
deriving DecidableEq

/-- The textual content of a document on disk, as the per-format handlers
see it: a readable document is its ordered list of text blocks (the format
libraries are external collaborators, spec §1, so their run structure is
abstracted to the text the transform touches); `broken` is a document the
library or the OS fails to read, raising whatever error message. -/
inductive Doc where
  | blocks : List (List Char) → Doc
  | broken : List Char → Doc

/-- Engine state for `process`/`batch`: the scrubber, the documents on disk,
and the JSON snapshots written so far (kept apart from documents: the tool
never reads a snapshot back during a batch). -/
structure SState where
  scrub : Scrubber
  fs : List (List Char × Doc)
  snapshots : List (List Char × J)

/-- `SUPPORTED_EXT = {".docx", ".pptx", ".xlsx", ".txt"}` (src/maskforge.py:36). -/
def SUPPORTED_EXT : List (List Char) :=
  [".docx".toList, ".pptx".toList, ".xlsx".toList, ".txt".toList]

/-- The legacy extensions rejected by `Scrubber.process` (src/maskforge.py:225). -/
def LEGACY_EXT : List (List Char) :=
  [".doc".toList, ".ppt".toList, ".xls".toList]

/-- The mode-specific output suffix inserted before the extension
(src/maskforge.py:217). -/
def outSuffix : Mode → List Char
  | Mode.enc => "_加密".toList
  | Mode.dec => "_解密".toList

/-- The output path `dst` computed by `Scrubber.process`
(src/maskforge.py:214-217). -/
def dstOf (src : List Char) (mode : Mode) : List Char :=
  let d := if dirnameCs src = [] then ['.'] else dirnameCs src
  let ext := (splitExtCs src).2.map Char.toLower
  joinCs d ((splitExtCs (basenameCs src)).1 ++ outSuffix mode ++ ext)

/-- `fn = self._enc if mode == "enc" else self._dec` (src/maskforge.py:219). -/
def transformFn (s : Scrubber) : Mode → (List Char → List Char)
  | Mode.enc => s.enc
  | Mode.dec => s.dec

/-- `Scrubber.save` (src/maskforge.py:121-129) as a state operation: write
the snapshot JSON next to the output path, append the path to `json_paths`,
return the path. -/
def saveOp (st : SState) (outPath : List Char) : List Char × SState :=
  let mp := mapPathOf outPath
  (mp,
   { st with
     scrub := { st.scrub with json_paths := st.scrub.json_paths ++ [mp] },
     snapshots := updA st.snapshots mp (saveJson st.scrub) })

/-- `Scrubber.process` (src/maskforge.py:211-231): missing source raises
`FileNotFoundError`; otherwise dispatch on the lowercased extension —
supported formats run the handler (which fails if the document is broken
and otherwise writes the transformed blocks to `dst`), legacy formats and
unknown extensions raise `ValueError`.  In mask mode the snapshot is then
saved next to `dst` and its path returned; in unmask mode it is `None`. -/
def processOp (st : SState) (src : List Char) (mode : Mode) :
    Except (List Char) (List Char × Option (List Char) × SState) :=
  match st.fs.lookup src with
  | none => Except.error ("FileNotFoundError:".toList ++ src)
  | some d0 =>
    let ext := (splitExtCs src).2.map Char.toLower
    let dst := dstOf src mode
    if SUPPORTED_EXT.contains ext then
      match d0 with
      | Doc.broken msg => Except.error msg
      | Doc.blocks bs =>
        let st1 := { st with fs := updA st.fs dst (Doc.blocks (bs.map (transformFn st.scrub mode))) }
        match mode with
        | Mode.enc =>
          let r := saveOp st1 dst
          Except.ok (dst, some r.1, r.2)
        | Mode.dec => Except.ok (dst, none, st1)
    else if LEGACY_EXT.contains ext then
      Except.error (ext ++ " legacy format, save as a modern format first".toList)
    else
      Except.error ("unsupported format:".toList ++ ext)

/-- One element of the list returned by `Scrubber.batch`: the tuple
`(input, output or None, error or None, snapshot path or None)`. -/
structure Outcome where
  input : List Char
  output : Option (List Char)
  err : Option (List Char)
  mapPath : Option (List Char)
deriving DecidableEq

/-- The snapshot component of a successful outcome:
`mp = self.save(dst) if mode == "enc" else None` (src/maskforge.py:230). -/
def mpOf (f : List Char) : Mode → Option (List Char)
  | Mode.enc => some (mapPathOf (dstOf f Mode.enc))
  | Mode.dec => none

/-- The per-file loop of `Scrubber.batch` (src/maskforge.py:236-245): each
file is processed independently; an exception is caught and recorded as
`(fp, None, str(e), None)` and the loop continues.  The progress callback
only drives the UI and is omitted. -/
def batchGo (mode : Mode) : SState → List (List Char) → List Outcome × SState
  | st, [] => ([], st)
  | st, f :: rest =>
    match processOp st f mode with
    | Except.ok (out, mp, st') =>
      let r := batchGo mode st' rest
      (⟨f, some out, none, mp⟩ :: r.1, r.2)
    | Except.error e =>
      let r := batchGo mode st rest
      (⟨f, none, some e, none⟩ :: r.1, r.2)

/-- `Scrubber.batch` (src/maskforge.py:233-246): in mask mode first extend
the mapping with the words, once for the whole batch, then run the per-file
loop. -/
def batchOp (st : SState) (files : List (List Char)) (words : List (List Char))
    (mode : Mode) (g : Nat → List Char) (n : Nat) : List Outcome × SState :=
  match mode with
  | Mode.enc =>
    let b := st.scrub.build words g n
    batchGo Mode.enc { st with scrub := b.1 } files
  | Mode.dec => batchGo Mode.dec st files

/-- Whether `Scrubber.process` will succeed on a file, judged against a
document store: the source must be a readable document with a supported
extension.  In every other case (`FileNotFoundError`, a broken document, a
legacy or unknown extension) `process` raises. -/
def willSucceedB (fs : List (List Char × Doc)) (f : List Char) : Bool :=
  match fs.lookup f with
  | some (Doc.blocks _) => SUPPORTED_EXT.contains ((splitExtCs f).2.map Char.toLower)
  | _ => false

/-- Well-formedness of a scrubber's bijection, as `Scrubber.build` maintains
it from a fresh session: every mapped word is non-empty, every token has the
reserved lexical shape, and the reverse dict maps each word's token back to
that word. -/
def wfS (s : Scrubber) : Bool :=
  s.mapping.all (fun p =>
    !(p.1 == []) && isMaskTok p.2 && (s.reverse.lookup p.2 == some p.1))

/-- A string with no occurrence of the token pattern at any position. -/
def tokenFree (p : List Char) : Prop :=
  ∀ i, isMaskTok ((p.drop i).take 15) = false

/-! ## Basic facts about the token pattern -/

theorem isHexU_ne_lbrack {c : Char} (h : isHexU c = true) : c ≠ '[' := by
  intro hc; subst hc; exact absurd h (by decide)

theorem isMaskTok_iff {cs : List Char} : isMaskTok cs = true ↔
    ∃ h1 h2 h3 h4 h5 h6 h7 h8,
      isHexU h1 = true ∧ isHexU h2 = true ∧ isHexU h3 = true ∧ isHexU h4 = true ∧
      isHexU h5 = true ∧ isHexU h6 = true ∧ isHexU h7 = true ∧ isHexU h8 = true ∧
      cs = '[' :: 'M' :: 'A' :: 'S' :: 'K' :: '_' ::
        h1 :: h2 :: h3 :: h4 :: h5 :: h6 :: h7 :: h8 :: [']'] := by
  constructor
  · intro h
    unfold isMaskTok at h
    split at h
    · simp only [Bool.and_eq_true, beq_iff_eq, and_assoc] at h
      obtain ⟨e0, e1, e2, e3, e4, e5, x1, x2, x3, x4, x5, x6, x7, x8, e14⟩ := h
      subst e0 e1 e2 e3 e4 e5 e14
      exact ⟨_, _, _, _, _, _, _, _, x1, x2, x3, x4, x5, x6, x7, x8, rfl⟩
    · exact absurd h (by simp)
  · rintro ⟨h1, h2, h3, h4, h5, h6, h7, h8, x1, x2, x3, x4, x5, x6, x7, x8, rfl⟩
    simp [isMaskTok, x1, x2, x3, x4, x5, x6, x7, x8]

theorem isMaskTok_length {cs : List Char} (h : isMaskTok cs = true) : cs.length = 15 := by
  obtain ⟨_, _, _, _, _, _, _, _, _, _, _, _, _, _, _, _, rfl⟩ := isMaskTok_iff.1 h
  rfl

theorem isMaskTok_of_length_ne {cs : List Char} (h : cs.length ≠ 15) :
    isMaskTok cs = false := by
  cases hm : isMaskTok cs
  · rfl
  · exact absurd (isMaskTok_length hm) h

theorem isMaskTok_head {cs : List Char} (h : isMaskTok cs = true) :
    cs.head? = some '[' := by
  obtain ⟨_, _, _, _, _, _, _, _, _, _, _, _, _, _, _, _, rfl⟩ := isMaskTok_iff.1 h
  rfl

/-- A token's opening bracket occurs only at its very first position: a
well-formed token cannot begin strictly inside another one, nor straddle the
boundary between ordinary text and a token. -/
theorem isMaskTok_append_lbrack {s v : List Char} (hs : s ≠ []) :
    isMaskTok (s ++ '[' :: v) = false := by
  cases hm : isMaskTok (s ++ '[' :: v)
  · rfl
  · exfalso
    obtain ⟨h1, h2, h3, h4, h5, h6, h7, h8, x1, x2, x3, x4, x5, x6, x7, x8, heq⟩ :=
      isMaskTok_iff.1 hm
    match s, hs with
    | a :: s', _ =>
      rw [List.cons_append] at heq
      have htail : s' ++ '[' :: v =
          'M' :: 'A' :: 'S' :: 'K' :: '_' ::
            h1 :: h2 :: h3 :: h4 :: h5 :: h6 :: h7 :: h8 :: [']'] :=
        (List.cons.injEq _ _ _ _ ▸ heq).2
      have hmem : '[' ∈ s' ++ '[' :: v := by simp
      rw [htail] at hmem
      simp only [List.mem_cons, List.mem_singleton] at hmem
      rcases hmem with h | h | h | h | h | h | h | h | h | h | h | h | h | h
      all_goals first
        | exact absurd h (by decide)
        | (first
            | exact isHexU_ne_lbrack x1 h.symm
            | exact isHexU_ne_lbrack x2 h.symm
            | exact isHexU_ne_lbrack x3 h.symm
            | exact isHexU_ne_lbrack x4 h.symm
            | exact isHexU_ne_lbrack x5 h.symm
            | exact isHexU_ne_lbrack x6 h.symm
            | exact isHexU_ne_lbrack x7 h.symm
            | exact isHexU_ne_lbrack x8 h.symm)

/-! ## Fuel irrelevance and scanning equations -/

theorem splitMasksF_irrel :
    ∀ (f1 f2 : Nat) (cs : List Char), cs.length ≤ f1 → cs.length ≤ f2 →
      splitMasksF f1 cs = splitMasksF f2 cs := by
  intro f1
  induction f1 with
  | zero =>
    intro f2 cs h1 _
    have : cs = [] := List.eq_nil_of_length_eq_zero (Nat.le_zero.1 h1)
    subst this; cases f2 <;> rfl
  | succ n ih =>
    intro f2 cs h1 h2
    match cs with
    | [] => cases f2 <;> rfl
    | c :: rest =>
      match f2, h2 with
      | m + 1, h2' =>
        simp only [List.length_cons] at h1 h2'
        simp only [splitMasksF]
        by_cases h : isMaskTok (List.take 15 (c :: rest)) = true
        · rw [if_pos h, if_pos h,
            ih m (List.drop 15 (c :: rest))
              (by simp only [List.length_drop, List.length_cons]; omega)
              (by simp only [List.length_drop, List.length_cons]; omega)]
        · rw [if_neg h, if_neg h, ih m rest (by omega) (by omega)]

theorem splitMasks_cons_tok {c : Char} {rest : List Char}
    (h : isMaskTok (List.take 15 (c :: rest)) = true) :
    splitMasks (c :: rest) =
      ([], (List.take 15 (c :: rest), (splitMasks (List.drop 15 (c :: rest))).1) ::
        (splitMasks (List.drop 15 (c :: rest))).2) := by
  show splitMasksF (c :: rest).length (c :: rest) = _
  simp only [List.length_cons, splitMasksF]
  rw [if_pos h,
    splitMasksF_irrel rest.length (List.drop 15 (c :: rest)).length
      (List.drop 15 (c :: rest))
      (by simp only [List.length_drop, List.length_cons]; omega) (le_refl _)]
  rfl

theorem splitMasks_cons_char {c : Char} {rest : List Char}
    (h : isMaskTok (List.take 15 (c :: rest)) = false) :
    splitMasks (c :: rest) = (c :: (splitMasks rest).1, (splitMasks rest).2) := by
  show splitMasksF (c :: rest).length (c :: rest) = _
  simp only [List.length_cons, splitMasksF]
  rw [if_neg (by rw [h]; exact Bool.false_ne_true)]
  rfl

theorem subWordsF_irrel (mp : List (List Char × List Char)) (ws : List (List Char)) :
    ∀ (f1 f2 : Nat) (cs : List Char), cs.length ≤ f1 → cs.length ≤ f2 →
      subWordsF mp ws f1 cs = subWordsF mp ws f2 cs := by
  intro f1
  induction f1 with
  | zero =>
    intro f2 cs h1 _
    have : cs = [] := List.eq_nil_of_length_eq_zero (Nat.le_zero.1 h1)
    subst this; cases f2 <;> rfl
  | succ n ih =>
    intro f2 cs h1 h2
    match cs with
    | [] => cases f2 <;> rfl
    | c :: rest =>
      match f2, h2 with
      | m + 1, h2' =>
        simp only [List.length_cons] at h1 h2'
        cases hf : findMatch ws (c :: rest) with
        | none =>
          simp only [subWordsF, hf]
          rw [ih m rest (by omega) (by omega)]
        | some w =>
          simp only [subWordsF, hf]
          by_cases hw : w.isEmpty = true
          · rw [if_pos hw, if_pos hw, ih m rest (by omega) (by omega)]
          · have hwlen : 1 ≤ w.length := by
              cases w with
              | nil => exact absurd rfl hw
              | cons a t => simp
            rw [if_neg hw, if_neg hw,
              ih m (List.drop w.length (c :: rest))
                (by simp only [List.length_drop, List.length_cons]; omega)
                (by simp only [List.length_drop, List.length_cons]; omega)]

theorem subWords_nil_of (mp : List (List Char × List Char)) {ws : List (List Char)}
    (h : ∀ w ∈ ws, w ≠ []) : subWords mp ws [] = [] := by
  have hf : findMatch ws [] = none := by
    apply List.find?_eq_none.2
    intro w hw
    cases hww : w with
    | nil => exact absurd hww (h w hw)
    | cons a t => simp [List.isPrefixOf]
  show subWordsF mp ws 0 [] = []
  simp only [subWordsF, hf]

theorem subWords_cons_found (mp : List (List Char × List Char)) {ws : List (List Char)}
    {c : Char} {rest w : List Char} (h : findMatch ws (c :: rest) = some w)
    (hw : w ≠ []) :
    subWords mp ws (c :: rest) =
      lookupD mp w w ++ subWords mp ws (List.drop w.length (c :: rest)) := by
  have hwe : w.isEmpty = false := by cases w with
    | nil => exact absurd rfl hw
    | cons a t => rfl
  show subWordsF mp ws (c :: rest).length (c :: rest) = _
  simp only [List.length_cons, subWordsF, h]
  rw [if_neg (by rw [hwe]; exact Bool.false_ne_true)]
  rw [subWordsF_irrel mp ws rest.length (List.drop w.length (c :: rest)).length
    (List.drop w.length (c :: rest))
    (by
      simp only [List.length_drop, List.length_cons]
      have : 1 ≤ w.length := by
        cases w with
        | nil => exact absurd rfl hw
        | cons a t => simp
      omega)
    (le_refl _)]
  rfl

theorem subWords_cons_none (mp : List (List Char × List Char)) {ws : List (List Char)}
    {c : Char} {rest : List Char} (h : findMatch ws (c :: rest) = none) :
    subWords mp ws (c :: rest) = c :: subWords mp ws rest := by
  show subWordsF mp ws (c :: rest).length (c :: rest) = _
  simp only [List.length_cons, subWordsF, h]
  rfl

theorem decodeTextF_irrel (rv : List (List Char × List Char)) :
    ∀ (f1 f2 : Nat) (cs : List Char), cs.length ≤ f1 → cs.length ≤ f2 →
      decodeTextF rv f1 cs = decodeTextF rv f2 cs := by
  intro f1
  induction f1 with
  | zero =>
    intro f2 cs h1 _
    have : cs = [] := List.eq_nil_of_length_eq_zero (Nat.le_zero.1 h1)
    subst this; cases f2 <;> rfl
  | succ n ih =>
    intro f2 cs h1 h2
    match cs with
    | [] => cases f2 <;> rfl
    | c :: rest =>
      match f2, h2 with
      | m + 1, h2' =>
        simp only [List.length_cons] at h1 h2'
        simp only [decodeTextF]
        by_cases h : isMaskTok (List.take 15 (c :: rest)) = true
        · rw [if_pos h, if_pos h,
            ih m (List.drop 15 (c :: rest))
              (by simp only [List.length_drop, List.length_cons]; omega)
              (by simp only [List.length_drop, List.length_cons]; omega)]
        · rw [if_neg h, if_neg h, ih m rest (by omega) (by omega)]

theorem decodeText_nil (rv : List (List Char × List Char)) : decodeText rv [] = [] := rfl

theorem decodeText_cons_tok (rv : List (List Char × List Char)) {c : Char}
    {rest : List Char} (h : isMaskTok (List.take 15 (c :: rest)) = true) :
    decodeText rv (c :: rest) =
      lookupD rv (List.take 15 (c :: rest)) (List.take 15 (c :: rest)) ++
        decodeText rv (List.drop 15 (c :: rest)) := by
  show decodeTextF rv (c :: rest).length (c :: rest) = _
  simp only [List.length_cons, decodeTextF]
  rw [if_pos h,
    decodeTextF_irrel rv rest.length (List.drop 15 (c :: rest)).length
      (List.drop 15 (c :: rest))
      (by simp only [List.length_drop, List.length_cons]; omega) (le_refl _)]
  rfl

theorem decodeText_cons_char (rv : List (List Char × List Char)) {c : Char}
    {rest : List Char} (h : isMaskTok (List.take 15 (c :: rest)) = false) :
    decodeText rv (c :: rest) = c :: decodeText rv rest := by
  show decodeTextF rv (c :: rest).length (c :: rest) = _
  simp only [List.length_cons, decodeTextF]
  rw [if_neg (by rw [h]; exact Bool.false_ne_true)]
  rfl

/-! ## Structure of the token split -/

theorem tokenFree_nil : tokenFree [] := by
  intro i
  simp [isMaskTok]

theorem tokenFree_cons {c : Char} {p : List Char}
    (h0 : isMaskTok (List.take 15 (c :: p)) = false) (hp : tokenFree p) :
    tokenFree (c :: p) := by
  intro i
  cases i with
  | zero => simpa using h0
  | succ j => simpa using hp j

theorem tokenFree_drop {p : List Char} (h : tokenFree p) (k : Nat) :
    tokenFree (List.drop k p) := by
  intro i
  rw [List.drop_drop]
  exact h (k + i)

theorem tokenFree_head {p : List Char} (h : tokenFree p) :
    isMaskTok (List.take 15 p) = false := by
  simpa using h 0

/-- Reassembling the split returns the original text: the `parts` interleaved
with the `masks` in original order reproduce the input. -/
theorem splitMasks_join :
    ∀ cs, (splitMasks cs).1 ++ ((splitMasks cs).2.map (fun q => q.1 ++ q.2)).flatten = cs := by
  have key : ∀ n cs, List.length cs ≤ n →
      (splitMasks cs).1 ++ ((splitMasks cs).2.map (fun q => q.1 ++ q.2)).flatten = cs := by
    intro n
    induction n with
    | zero =>
      intro cs h
      have : cs = [] := List.eq_nil_of_length_eq_zero (Nat.le_zero.1 h)
      subst this; rfl
    | succ n ih =>
      intro cs h
      match cs with
      | [] => rfl
      | c :: rest =>
        simp only [List.length_cons] at h
        cases htok : isMaskTok (List.take 15 (c :: rest)) with
        | true =>
          rw [splitMasks_cons_tok htok]
          have hd := ih (List.drop 15 (c :: rest))
            (by simp only [List.length_drop, List.length_cons]; omega)
          simp only [List.map_cons, List.flatten_cons, List.nil_append]
          rw [List.append_assoc, hd, List.take_append_drop]
        | false =>
          rw [splitMasks_cons_char htok]
          have hr := ih rest (by omega)
          simpa using hr
  exact fun cs => key cs.length cs (le_refl _)

/-- Every part produced by the split is token free, and every mask produced
is a well-formed token. -/
theorem splitMasks_parts :
    ∀ cs, tokenFree (splitMasks cs).1 ∧
      ∀ q ∈ (splitMasks cs).2, isMaskTok q.1 = true ∧ tokenFree q.2 := by
  have key : ∀ n cs, List.length cs ≤ n →
      tokenFree (splitMasks cs).1 ∧
        ∀ q ∈ (splitMasks cs).2, isMaskTok q.1 = true ∧ tokenFree q.2 := by
    intro n
    induction n with
    | zero =>
      intro cs h
      have : cs = [] := List.eq_nil_of_length_eq_zero (Nat.le_zero.1 h)
      subst this
      exact ⟨tokenFree_nil, by simp [splitMasks, splitMasksF]⟩
    | succ n ih =>
      intro cs h
      match cs with
      | [] => exact ⟨tokenFree_nil, by simp [splitMasks, splitMasksF]⟩
      | c :: rest =>
        simp only [List.length_cons] at h
        cases htok : isMaskTok (List.take 15 (c :: rest)) with
        | true =>
          rw [splitMasks_cons_tok htok]
          have hd := ih (List.drop 15 (c :: rest))
            (by simp only [List.length_drop, List.length_cons]; omega)
          refine ⟨tokenFree_nil, ?_⟩
          intro q hq
          rcases List.mem_cons.1 hq with hq | hq
          · subst hq
            exact ⟨htok, hd.1⟩
          · exact hd.2 q hq
        | false =>
          rw [splitMasks_cons_char htok]
          have hr := ih rest (by omega)
          refine ⟨?_, hr.2⟩
          apply tokenFree_cons ?_ hr.1
          by_cases hlen : 14 ≤ (splitMasks rest).1.length
          · have hpre : (splitMasks rest).1 ++
                ((splitMasks rest).2.map (fun q => q.1 ++ q.2)).flatten = rest :=
              splitMasks_join rest
            have htk : List.take 14 (splitMasks rest).1 = List.take 14 rest := by
              conv_rhs => rw [← hpre]
              rw [List.take_append_of_le_length hlen]
            calc isMaskTok (List.take 15 (c :: (splitMasks rest).1))
                = isMaskTok (c :: List.take 14 (splitMasks rest).1) := by
                  rw [List.take_succ_cons]
              _ = isMaskTok (c :: List.take 14 rest) := by rw [htk]
              _ = isMaskTok (List.take 15 (c :: rest)) := by rw [List.take_succ_cons]
              _ = false := htok
          · apply isMaskTok_of_length_ne
            rw [List.take_of_length_le]
            · simp only [List.length_cons]
              omega
            · simp only [List.length_cons]
              omega
  exact fun cs => key cs.length cs (le_refl _)

/-- Splitting a text of the shape `A ++ m ++ B`, where `m` is a well-formed
token, splits `A` and `B` independently and records `m` between them: token
matches never straddle the boundary of a token already present, because `[`
cannot occur strictly inside a token. -/
theorem splitMasks_append {m : List Char} (hm : isMaskTok m = true) (B : List Char) :
    ∀ A, splitMasks (A ++ (m ++ B)) =
      ((splitMasks A).1,
        (splitMasks A).2 ++ (m, (splitMasks B).1) :: (splitMasks B).2) := by
  obtain ⟨a0, m2, hm2⟩ : ∃ a0 m2, m = a0 :: m2 := by
    match m, isMaskTok_length hm with
    | c :: t, _ => exact ⟨c, t, rfl⟩
  have h15 : m.length = 15 := isMaskTok_length hm
  have hbrack : m.head? = some '[' := isMaskTok_head hm
  have key : ∀ n A, List.length A ≤ n →
      splitMasks (A ++ (m ++ B)) =
        ((splitMasks A).1,
          (splitMasks A).2 ++ (m, (splitMasks B).1) :: (splitMasks B).2) := by
    intro n
    induction n with
    | zero =>
      intro A hA
      have : A = [] := List.eq_nil_of_length_eq_zero (Nat.le_zero.1 hA)
      subst this
      subst hm2
      rw [List.nil_append, List.cons_append, splitMasks_cons_tok]
      · rw [show List.take 15 (a0 :: (m2 ++ B)) = a0 :: m2 from ?_,
          show List.drop 15 (a0 :: (m2 ++ B)) = B from ?_]
        · rfl
        · rw [← List.cons_append]
          exact List.drop_left' h15
        · rw [← List.cons_append]
          exact List.take_left' h15
      · rw [← List.cons_append, List.take_left' h15]
        exact hm
    | succ n ih =>
      intro A hA
      match A with
      | [] => exact ih [] (by simp)
      | c :: A' =>
        simp only [List.length_cons] at hA
        by_cases hlen : 15 ≤ (c :: A').length
        · have htake : List.take 15 ((c :: A') ++ (m ++ B)) = List.take 15 (c :: A') :=
            List.take_append_of_le_length hlen
          cases htok : isMaskTok (List.take 15 (c :: A')) with
          | true =>
            have htok' : isMaskTok (List.take 15 (c :: (A' ++ (m ++ B)))) = true := by
              rw [← List.cons_append, htake]; exact htok
            rw [List.cons_append, splitMasks_cons_tok htok', splitMasks_cons_tok htok]
            have hdrop : List.drop 15 ((c :: A') ++ (m ++ B)) =
                List.drop 15 (c :: A') ++ (m ++ B) :=
              List.drop_append_of_le_length hlen
            have hih := ih (List.drop 15 (c :: A'))
              (by simp only [List.length_drop, List.length_cons]; omega)
            rw [← List.cons_append, htake, hdrop, hih]
            rfl
          | false =>
            have htok' : isMaskTok (List.take 15 (c :: (A' ++ (m ++ B)))) = false := by
              rw [← List.cons_append, htake]; exact htok
            rw [List.cons_append, splitMasks_cons_char htok', splitMasks_cons_char htok]
            have hih := ih A' (by omega)
            rw [hih]
        · push_neg at hlen
          have hAne : (c :: A') ≠ [] := by simp
          have htokA : isMaskTok (List.take 15 (c :: A')) = false := by
            rw [List.take_of_length_le (by omega)]
            exact isMaskTok_of_length_ne (by omega)
          have htok' : isMaskTok (List.take 15 ((c :: A') ++ (m ++ B))) = false := by
            rw [List.take_append_eq_append_take,
              List.take_of_length_le (le_of_lt (by omega))]
            subst hm2
            have ha0 : a0 = '[' := by simpa using hbrack
            subst ha0
            have hk : ∃ j, 15 - (c :: A').length = j + 1 := by
              refine ⟨14 - (c :: A').length, ?_⟩
              simp only [List.length_cons] at hlen ⊢
              omega
            obtain ⟨j, hj⟩ := hk
            rw [hj, show ('[' :: m2) ++ B = '[' :: (m2 ++ B) from rfl,
              List.take_succ_cons]
            exact isMaskTok_append_lbrack hAne
          cases hcc : isMaskTok (List.take 15 (c :: (A' ++ (m ++ B)))) with
          | true =>
            rw [← List.cons_append] at hcc
            rw [hcc] at htok'
            exact absurd htok' (by simp)
          | false =>
            rw [List.cons_append, splitMasks_cons_char hcc, splitMasks_cons_char htokA]
            have hih := ih A' (by omega)
            rw [hih]
  exact fun A => key A.length A (le_refl _)

/-! ## Association lists and the length-descending sort -/

theorem lookup_mem {β : Type} :
    ∀ {l : List (List Char × β)} {k : List Char} {v : β},
      l.lookup k = some v → (k, v) ∈ l := by
  intro l
  induction l with
  | nil => intro k v h; simp [List.lookup] at h
  | cons p rest ih =>
    intro k v h
    obtain ⟨k', v'⟩ := p
    rw [List.lookup_cons] at h
    cases hk : (k == k') with
    | true =>
      rw [hk] at h
      have hkk : k = k' := eq_of_beq hk
      have h' : some v' = some v := h
      rw [Option.some.injEq] at h'
      subst hkk
      subst h'
      exact List.mem_cons_self _ _
    | false =>
      rw [hk] at h
      have h' : List.lookup k rest = some v := h
      exact List.mem_cons_of_mem _ (ih h')

theorem lookup_isSome_of_keyMem {β : Type} :
    ∀ {l : List (List Char × β)} {k : List Char},
      keyMem l k = true → ∃ v, l.lookup k = some v := by
  intro l
  induction l with
  | nil => intro k h; simp [keyMem] at h
  | cons p rest ih =>
    intro k h
    obtain ⟨k', v'⟩ := p
    rw [List.lookup_cons]
    cases hk : (k == k') with
    | true => exact ⟨v', rfl⟩
    | false =>
      simp only [keyMem, List.any_cons, Bool.or_eq_true] at h
      rcases h with h | h
      · exfalso
        have : k' = k := eq_of_beq h
        subst this
        simp at hk
      · exact ih h

theorem keyMem_of_lookup {β : Type} {l : List (List Char × β)} {k : List Char}
    {v : β} (h : l.lookup k = some v) : keyMem l k = true := by
  have hm := lookup_mem h
  simp only [keyMem, List.any_eq_true]
  exact ⟨(k, v), hm, by simp⟩

theorem lookup_append_some {β : Type} :
    ∀ {l1 l2 : List (List Char × β)} {k : List Char} {v : β},
      l1.lookup k = some v → (l1 ++ l2).lookup k = some v := by
  intro l1
  induction l1 with
  | nil => intro l2 k v h; simp [List.lookup] at h
  | cons p rest ih =>
    intro l2 k v h
    obtain ⟨k', v'⟩ := p
    rw [List.lookup_cons] at h
    rw [List.cons_append, List.lookup_cons]
    cases hk : (k == k') with
    | true => rw [hk] at h; exact h
    | false => rw [hk] at h; exact ih h

theorem mem_insertDesc {w a : List Char} :
    ∀ {l : List (List Char)}, a ∈ insertDesc w l ↔ a = w ∨ a ∈ l := by
  intro l
  induction l with
  | nil => simp [insertDesc]
  | cons v vs ih =>
    simp only [insertDesc]
    by_cases h : w.length < v.length
    · rw [if_pos h]
      simp only [List.mem_cons, ih]
      tauto
    · rw [if_neg h]
      simp only [List.mem_cons]

theorem mem_sortLenDesc {a : List Char} :
    ∀ {l : List (List Char)}, a ∈ sortLenDesc l ↔ a ∈ l := by
  intro l
  induction l with
  | nil => simp [sortLenDesc]
  | cons w ws ih =>
    simp only [sortLenDesc, mem_insertDesc, ih, List.mem_cons]

theorem pairwise_insertDesc {w : List Char} :
    ∀ {l : List (List Char)},
      List.Pairwise (fun u v : List Char => v.length ≤ u.length) l →
      List.Pairwise (fun u v : List Char => v.length ≤ u.length) (insertDesc w l) := by
  intro l
  induction l with
  | nil => intro _; simp [insertDesc]
  | cons v vs ih =>
    intro hp
    rw [List.pairwise_cons] at hp
    simp only [insertDesc]
    by_cases h : w.length < v.length
    · rw [if_pos h, List.pairwise_cons]
      refine ⟨?_, ih hp.2⟩
      intro a ha
      rcases mem_insertDesc.1 ha with rfl | ha
      · exact le_of_lt h
      · exact hp.1 a ha
    · rw [if_neg h, List.pairwise_cons]
      push_neg at h
      refine ⟨?_, List.pairwise_cons.2 ⟨hp.1, hp.2⟩⟩
      intro a ha
      rcases List.mem_cons.1 ha with rfl | ha
      · exact h
      · exact le_trans (hp.1 a ha) h

theorem pairwise_sortLenDesc :
    ∀ l : List (List Char),
      List.Pairwise (fun u v : List Char => v.length ≤ u.length) (sortLenDesc l) := by
  intro l
  induction l with
  | nil => simp [sortLenDesc]
  | cons w ws ih => exact pairwise_insertDesc ih

/-- The length-ordered alternation finds exactly the word `b` on the text
`b` itself: longer words cannot match, and equal-length matches are `b`. -/
theorem find_len_sorted {ws : List (List Char)} {b : List Char}
    (hs : List.Pairwise (fun u v : List Char => v.length ≤ u.length) ws)
    (hmem : b ∈ ws) :
    ws.find? (fun w => w.isPrefixOf b) = some b := by
  induction ws with
  | nil => simp at hmem
  | cons w ws' ih =>
    rw [List.pairwise_cons] at hs
    cases hpre : w.isPrefixOf b with
    | true =>
      have hwb : w <+: b := List.isPrefixOf_iff_prefix.1 hpre
      have hwe : w = b := by
        rcases List.mem_cons.1 hmem with h | h
        · exact h.symm
        · exact hwb.eq_of_length (le_antisymm hwb.length_le (hs.1 b h))
      subst hwe
      simp [List.find?, hpre]
    | false =>
      have hmem' : b ∈ ws' := by
        rcases List.mem_cons.1 hmem with h | h
        · subst h
          have : b.isPrefixOf b = true := List.isPrefixOf_iff_prefix.2 (List.prefix_refl b)
          rw [this] at hpre
          exact absurd hpre (by simp)
        · exact h
      simp only [List.find?, hpre]
      exact ih hs.2 hmem'

/-! ## Decomposition of decode and encode over token boundaries -/

/-- `_dec` in terms of the token split: every part is copied and every mask
is replaced by its reverse-mapped word (or kept verbatim). -/
theorem decodeText_rep (rv : List (List Char × List Char)) :
    ∀ cs, decodeText rv cs =
      (splitMasks cs).1 ++
        ((splitMasks cs).2.map (fun q => lookupD rv q.1 q.1 ++ q.2)).flatten := by
  have key : ∀ n cs, List.length cs ≤ n →
      decodeText rv cs =
        (splitMasks cs).1 ++
          ((splitMasks cs).2.map (fun q => lookupD rv q.1 q.1 ++ q.2)).flatten := by
    intro n
    induction n with
    | zero =>
      intro cs h
      have : cs = [] := List.eq_nil_of_length_eq_zero (Nat.le_zero.1 h)
      subst this; rfl
    | succ n ih =>
      intro cs h
      match cs with
      | [] => rfl
      | c :: rest =>
        simp only [List.length_cons] at h
        cases htok : isMaskTok (List.take 15 (c :: rest)) with
        | true =>
          rw [decodeText_cons_tok rv htok, splitMasks_cons_tok htok,
            ih (List.drop 15 (c :: rest))
              (by simp only [List.length_drop, List.length_cons]; omega)]
          simp [List.append_assoc]
        | false =>
          rw [decodeText_cons_char rv htok, splitMasks_cons_char htok, ih rest (by omega)]
          simp
  exact fun cs => key cs.length cs (le_refl _)

/-- Decoding distributes over a well-formed token occurrence: the token is
replaced according to the reverse map and the two sides are decoded
independently — no decode match straddles the token's boundaries. -/
theorem decodeText_append_tok (rv : List (List Char × List Char))
    {m : List Char} (hm : isMaskTok m = true) (X Y : List Char) :
    decodeText rv (X ++ (m ++ Y)) =
      decodeText rv X ++ (lookupD rv m m ++ decodeText rv Y) := by
  rw [decodeText_rep, decodeText_rep, decodeText_rep, splitMasks_append hm Y X]
  simp [List.map_append, List.flatten_append, List.append_assoc]

/-- `_enc` with a non-empty mapping, unfolded. -/
theorem enc_eq {s : Scrubber} (h : s.mapping ≠ []) (text : List Char) :
    s.enc text =
      subWords s.mapping (sortLenDesc (s.mapping.map Prod.fst)) (splitMasks text).1 ++
        ((splitMasks text).2.map
          (fun q => q.1 ++ subWords s.mapping (sortLenDesc (s.mapping.map Prod.fst)) q.2)).flatten := by
  simp only [Scrubber.enc, if_neg h]

/-- Encoding distributes over a well-formed token occurrence: the token is
left byte-for-byte unchanged and the two sides are encoded independently. -/
theorem enc_append_tok (s : Scrubber) {m : List Char} (hm : isMaskTok m = true)
    (A B : List Char) :
    s.enc (A ++ (m ++ B)) = s.enc A ++ (m ++ s.enc B) := by
  by_cases h : s.mapping = []
  · simp [Scrubber.enc, h]
  · rw [enc_eq h, enc_eq h, enc_eq h, splitMasks_append hm B A]
    simp [List.map_append, List.flatten_append, List.append_assoc]

/-! ## Decoding undoes the word substitution on token-free text -/

theorem wf_facts {s : Scrubber} (hwf : wfS s = true) {w t : List Char}
    (hmem : (w, t) ∈ s.mapping) :
    w ≠ [] ∧ isMaskTok t = true ∧ s.reverse.lookup t = some w := by
  have h := List.all_eq_true.1 hwf _ hmem
  simp only [Bool.and_eq_true, Bool.not_eq_true', beq_eq_false_iff_ne, ne_eq,
    beq_iff_eq] at h
  exact ⟨h.1.1, h.1.2, h.2⟩

theorem keyMem_of_mem_keys {β : Type} {l : List (List Char × β)} {w : List Char}
    (h : w ∈ l.map Prod.fst) : keyMem l w = true := by
  obtain ⟨p, hp, hpe⟩ := List.mem_map.1 h
  simp only [keyMem, List.any_eq_true]
  exact ⟨p, hp, by simp [hpe]⟩

theorem words_ne_nil {s : Scrubber} (hwf : wfS s = true) :
    ∀ w ∈ sortLenDesc (s.mapping.map Prod.fst), w ≠ [] := by
  intro w hw
  obtain ⟨p, hp, hpe⟩ := List.mem_map.1 (mem_sortLenDesc.1 hw)
  obtain ⟨w', t⟩ := p
  cases hpe
  exact (wf_facts hwf hp).1

/-- Shape of `word_pat.sub` output: a literally copied prefix of the input
followed by either nothing or an inserted token (which starts with `[`). -/
theorem subWords_shape (s : Scrubber) (hwf : wfS s = true) :
    ∀ p : List Char, ∃ k rest2,
      k ≤ p.length ∧
      subWords s.mapping (sortLenDesc (s.mapping.map Prod.fst)) p =
        p.take k ++ rest2 ∧
      (rest2 = [] ∨ rest2.head? = some '[') := by
  have key : ∀ n (p : List Char), p.length ≤ n → ∃ k rest2,
      k ≤ p.length ∧
      subWords s.mapping (sortLenDesc (s.mapping.map Prod.fst)) p =
        p.take k ++ rest2 ∧
      (rest2 = [] ∨ rest2.head? = some '[') := by
    intro n
    induction n with
    | zero =>
      intro p h
      have : p = [] := List.eq_nil_of_length_eq_zero (Nat.le_zero.1 h)
      subst this
      exact ⟨0, [], Nat.le_refl _,
        by rw [subWords_nil_of _ (words_ne_nil hwf)]; rfl, Or.inl rfl⟩
    | succ n ih =>
      intro p h
      match p with
      | [] =>
        exact ⟨0, [], Nat.le_refl _,
          by rw [subWords_nil_of _ (words_ne_nil hwf)]; rfl, Or.inl rfl⟩
      | c :: rest =>
        simp only [List.length_cons] at h
        cases hf : findMatch (sortLenDesc (s.mapping.map Prod.fst)) (c :: rest) with
        | none =>
          obtain ⟨k, r2, hk, heq, hd⟩ := ih rest (by omega)
          refine ⟨k + 1, r2, by simp only [List.length_cons]; omega, ?_, hd⟩
          rw [subWords_cons_none _ hf, heq, List.take_succ_cons]
          rfl
        | some w =>
          have hwmem : w ∈ sortLenDesc (s.mapping.map Prod.fst) :=
            List.mem_of_find?_eq_some hf
          have hwne : w ≠ [] := words_ne_nil hwf w hwmem
          obtain ⟨t', ht'⟩ :=
            lookup_isSome_of_keyMem (keyMem_of_mem_keys (mem_sortLenDesc.1 hwmem))
          have hfacts := wf_facts hwf (lookup_mem ht')
          refine ⟨0, lookupD s.mapping w w ++
              subWords s.mapping (sortLenDesc (s.mapping.map Prod.fst))
                (List.drop w.length (c :: rest)),
            Nat.zero_le _, ?_, Or.inr ?_⟩
          · rw [subWords_cons_found _ hf hwne, List.take_zero, List.nil_append]
          ·
            have hl : lookupD s.mapping w w = t' := by simp [lookupD, ht']
            rw [hl]
            obtain ⟨d, t2, rfl⟩ : ∃ d t2, t' = d :: t2 := by
              match t', isMaskTok_length hfacts.2.1 with
              | x :: t, _ => exact ⟨x, t, rfl⟩
            have hd : d = '[' := by simpa using isMaskTok_head hfacts.2.1
            subst hd
            rfl
  exact fun p => key p.length p (le_refl _)

/-- The first scanning window of `c :: word_pat.sub(part)` is not a token
when `c :: part` is token free: it is either too short, equal to a window of
the original text, or interrupted by the `[` of an inserted token. -/
theorem subWords_head_not_tok (s : Scrubber) (hwf : wfS s = true) {c : Char}
    {rest : List Char} (htf : tokenFree (c :: rest)) :
    isMaskTok (List.take 15
      (c :: subWords s.mapping (sortLenDesc (s.mapping.map Prod.fst)) rest)) = false := by
  obtain ⟨k, r2, hk, heq, hd⟩ := subWords_shape s hwf rest
  rw [heq]
  have hlentake : (List.take k rest).length = k := by
    rw [List.length_take]
    omega
  by_cases hlen : 14 ≤ k
  · rw [List.take_succ_cons, List.take_append_of_le_length (by omega),
      List.take_take, show min 14 k = 14 by omega]
    have := tokenFree_head htf
    rw [List.take_succ_cons] at this
    exact this
  · push_neg at hlen
    rcases hd with rfl | hd
    · rw [List.append_nil]
      apply isMaskTok_of_length_ne
      rw [List.take_of_length_le (by simp only [List.length_cons]; omega)]
      simp only [List.length_cons]
      omega
    · obtain ⟨r3, rfl⟩ : ∃ r3, r2 = '[' :: r3 := by
        cases r2 with
        | nil => simp at hd
        | cons a t =>
          refine ⟨t, ?_⟩
          have : a = '[' := by simpa using hd
          rw [this]
      rw [show c :: (List.take k rest ++ '[' :: r3) =
        (c :: List.take k rest) ++ '[' :: r3 from rfl]
      rw [List.take_append_eq_append_take,
        List.take_of_length_le (by simp only [List.length_cons]; omega)]
      obtain ⟨j, hj⟩ : ∃ j, 15 - (c :: List.take k rest).length = j + 1 := by
        refine ⟨14 - (c :: List.take k rest).length, ?_⟩
        simp only [List.length_cons]
        omega
      rw [hj, List.take_succ_cons]
      exact isMaskTok_append_lbrack (by simp)

/-- Decoding inverts the word substitution on token-free text: every
substituted word comes back through the reverse map, and nothing else is
touched. -/
theorem dec_sub (s : Scrubber) (hwf : wfS s = true) :
    ∀ p : List Char, tokenFree p →
      decodeText s.reverse
        (subWords s.mapping (sortLenDesc (s.mapping.map Prod.fst)) p) = p := by
  have key : ∀ n (p : List Char), p.length ≤ n → tokenFree p →
      decodeText s.reverse
        (subWords s.mapping (sortLenDesc (s.mapping.map Prod.fst)) p) = p := by
    intro n
    induction n with
    | zero =>
      intro p h _
      have : p = [] := List.eq_nil_of_length_eq_zero (Nat.le_zero.1 h)
      subst this
      rw [subWords_nil_of _ (words_ne_nil hwf)]
      rfl
    | succ n ih =>
      intro p h htf
      match p with
      | [] =>
        rw [subWords_nil_of _ (words_ne_nil hwf)]
        rfl
      | c :: rest =>
        simp only [List.length_cons] at h
        cases hf : findMatch (sortLenDesc (s.mapping.map Prod.fst)) (c :: rest) with
        | none =>
          rw [subWords_cons_none _ hf,
            decodeText_cons_char _ (subWords_head_not_tok s hwf htf),
            ih rest (by omega) (by
              have := tokenFree_drop htf 1
              simpa using this)]
        | some w =>
          have hwmem : w ∈ sortLenDesc (s.mapping.map Prod.fst) :=
            List.mem_of_find?_eq_some hf
          have hwne : w ≠ [] := words_ne_nil hwf w hwmem
          obtain ⟨t', ht'⟩ :=
            lookup_isSome_of_keyMem (keyMem_of_mem_keys (mem_sortLenDesc.1 hwmem))
          have hfacts := wf_facts hwf (lookup_mem ht')
          rw [subWords_cons_found _ hf hwne]
          have hl : lookupD s.mapping w w = t' := by simp [lookupD, ht']
          rw [hl]
          have h15 : t'.length = 15 := isMaskTok_length hfacts.2.1
          obtain ⟨d, t2, rfl⟩ : ∃ d t2, t' = d :: t2 := by
            match t', h15 with
            | x :: t, _ => exact ⟨x, t, rfl⟩
          rw [show (d :: t2) ++
              subWords s.mapping (sortLenDesc (s.mapping.map Prod.fst))
                (List.drop w.length (c :: rest)) =
              d :: (t2 ++
                subWords s.mapping (sortLenDesc (s.mapping.map Prod.fst))
                  (List.drop w.length (c :: rest))) from rfl]
          have htake : List.take 15 (d :: (t2 ++
              subWords s.mapping (sortLenDesc (s.mapping.map Prod.fst))
                (List.drop w.length (c :: rest)))) = d :: t2 := by
            rw [show d :: (t2 ++
                subWords s.mapping (sortLenDesc (s.mapping.map Prod.fst))
                  (List.drop w.length (c :: rest))) =
              (d :: t2) ++
                subWords s.mapping (sortLenDesc (s.mapping.map Prod.fst))
                  (List.drop w.length (c :: rest)) from rfl]
            exact List.take_left' h15
          have hdrop : List.drop 15 (d :: (t2 ++
              subWords s.mapping (sortLenDesc (s.mapping.map Prod.fst))
                (List.drop w.length (c :: rest)))) =
              subWords s.mapping (sortLenDesc (s.mapping.map Prod.fst))
                (List.drop w.length (c :: rest)) := by
            rw [show d :: (t2 ++
                subWords s.mapping (sortLenDesc (s.mapping.map Prod.fst))
                  (List.drop w.length (c :: rest))) =
              (d :: t2) ++
                subWords s.mapping (sortLenDesc (s.mapping.map Prod.fst))
                  (List.drop w.length (c :: rest)) from rfl]
            exact List.drop_left' h15
          rw [decodeText_cons_tok _ (by rw [htake]; exact hfacts.2.1), htake, hdrop]
          have hrl : lookupD s.reverse (d :: t2) (d :: t2) = w := by
            simp [lookupD, hfacts.2.2]
          rw [hrl]
          have hwlen : 1 ≤ w.length := by
            cases w with
            | nil => exact absurd rfl hwne
            | cons a t => simp
          rw [ih (List.drop w.length (c :: rest))
            (by simp only [List.length_drop, List.length_cons]; omega)
            (tokenFree_drop htf w.length)]
          have hf' : List.find? (fun u => u.isPrefixOf (c :: rest))
              (sortLenDesc (s.mapping.map Prod.fst)) = some w := hf
          have hps := @List.find?_some (List Char)
            (fun u => u.isPrefixOf (c :: rest)) w
            (sortLenDesc (s.mapping.map Prod.fst)) hf'
          have hpre : w <+: (c :: rest) := List.isPrefixOf_iff_prefix.1 hps
          conv_rhs => rw [← List.take_append_drop w.length (c :: rest)]
          rw [← List.prefix_iff_eq_take.1 hpre]
  exact fun p => key p.length p (le_refl _)

/-- Decoding the reassembled encode output, provided every token already
present in the original text is unknown to the reverse map. -/
theorem dec_flat (s : Scrubber) (hwf : wfS s = true) :
    ∀ (ms : List (List Char × List Char)) (p0 : List Char), tokenFree p0 →
      (∀ q ∈ ms, isMaskTok q.1 = true ∧ tokenFree q.2 ∧ s.reverse.lookup q.1 = none) →
      decodeText s.reverse
        (subWords s.mapping (sortLenDesc (s.mapping.map Prod.fst)) p0 ++
          (ms.map (fun q =>
            q.1 ++ subWords s.mapping (sortLenDesc (s.mapping.map Prod.fst)) q.2)).flatten) =
      p0 ++ (ms.map (fun q => q.1 ++ q.2)).flatten := by
  intro ms
  induction ms with
  | nil =>
    intro p0 htf _
    simp only [List.map_nil, List.flatten_nil, List.append_nil]
    exact dec_sub s hwf p0 htf
  | cons q ms' ih =>
    intro p0 htf hq
    obtain ⟨m, pq⟩ := q
    have hqh := hq (m, pq) (List.mem_cons_self _ _)
    rw [List.map_cons, List.flatten_cons]
    rw [show subWords s.mapping (sortLenDesc (s.mapping.map Prod.fst)) p0 ++
        ((m ++ subWords s.mapping (sortLenDesc (s.mapping.map Prod.fst)) pq) ++
          (ms'.map (fun q =>
            q.1 ++ subWords s.mapping (sortLenDesc (s.mapping.map Prod.fst)) q.2)).flatten) =
      subWords s.mapping (sortLenDesc (s.mapping.map Prod.fst)) p0 ++
        (m ++ (subWords s.mapping (sortLenDesc (s.mapping.map Prod.fst)) pq ++
          (ms'.map (fun q =>
            q.1 ++ subWords s.mapping (sortLenDesc (s.mapping.map Prod.fst)) q.2)).flatten)) by
      simp [List.append_assoc]]
    rw [decodeText_append_tok s.reverse hqh.1, dec_sub s hwf p0 htf,
      ih pq hqh.2.1 (fun q' hq' => hq q' (List.mem_cons_of_mem _ hq'))]
    have hm : lookupD s.reverse m m = m := by simp [lookupD, hqh.2.2]
    rw [hm]
    simp [List.append_assoc]

/-- Claim C1, counterexample to the claim as stated: with the mapping built
from the single word `foo` (token draw `[MASK_AAAAAAAA]`), the text
`foo [MASK_AAAAAAAA]` contains an occurrence of a word of W, no word of W
matches the token pattern, and yet `unmask(mask(T)) ≠ T`: masking leaves the
token of the text untouched, and unmasking maps both that token and the
inserted one back to `foo`. -/
theorem claim1_counterexample :
    ("foo".toList).isPrefixOf "foo [MASK_AAAAAAAA]".toList = true ∧
    isMaskTok ("foo".toList) = false ∧
    ((Scrubber.build ⟨[], [], []⟩ ["foo".toList]
        (fun _ => "[MASK_AAAAAAAA]".toList) 0).1).dec
      (((Scrubber.build ⟨[], [], []⟩ ["foo".toList]
        (fun _ => "[MASK_AAAAAAAA]".toList) 0).1).enc
        "foo [MASK_AAAAAAAA]".toList) ≠
      "foo [MASK_AAAAAAAA]".toList := by
  refine ⟨by decide, by decide, by decide⟩

/-- Claim C1 (amended): for every well-formed mapping (as built from a word
set) and every text T, `unmask(mask(T)) = T` — provided no word of the
mapping matches the token lexical pattern and, additionally, no token
occurring in T is a key of the reverse map (tokens of the session occurring
verbatim in the input are decoded to their words, so they must be absent
for the round trip). -/
theorem claim1_roundtrip (s : Scrubber) (T : List Char)
    (hwf : wfS s = true)
    (hwords : s.mapping.all (fun p => !isMaskTok p.1) = true)
    (hT : (splitMasks T).2.all (fun q => (s.reverse.lookup q.1).isNone) = true) :
    s.dec (s.enc T) = T := by
  have hTm : ∀ q ∈ (splitMasks T).2, s.reverse.lookup q.1 = none := by
    intro q hq
    have := List.all_eq_true.1 hT q hq
    simpa [Option.isNone_iff_eq_none] using this
  have hparts := splitMasks_parts T
  by_cases hM : s.mapping = []
  · have henc : s.enc T = T := by simp [Scrubber.enc, hM]
    rw [henc, Scrubber.dec, decodeText_rep]
    have hmaps : (splitMasks T).2.map (fun q => lookupD s.reverse q.1 q.1 ++ q.2) =
        (splitMasks T).2.map (fun q => q.1 ++ q.2) :=
      List.map_congr_left (fun q hq => by simp [lookupD, hTm q hq])
    rw [hmaps, splitMasks_join]
  · rw [Scrubber.dec, enc_eq hM,
      dec_flat s hwf (splitMasks T).2 (splitMasks T).1 hparts.1
        (fun q hq => ⟨(hparts.2 q hq).1, (hparts.2 q hq).2, hTm q hq⟩),
      splitMasks_join]

/-- Witness for C1 (amended) at a concrete instance: mapping built from
`{foo}`, text `a foo b` (token free). -/
theorem claim1_witness :
    wfS (Scrubber.build ⟨[], [], []⟩ ["foo".toList]
      (fun _ => "[MASK_AAAAAAAA]".toList) 0).1 = true ∧
    ((Scrubber.build ⟨[], [], []⟩ ["foo".toList]
      (fun _ => "[MASK_AAAAAAAA]".toList) 0).1).mapping.all
        (fun p => !isMaskTok p.1) = true ∧
    (splitMasks "a foo b".toList).2.all
      (fun q => (((Scrubber.build ⟨[], [], []⟩ ["foo".toList]
        (fun _ => "[MASK_AAAAAAAA]".toList) 0).1).reverse.lookup q.1).isNone) = true ∧
    ((Scrubber.build ⟨[], [], []⟩ ["foo".toList]
      (fun _ => "[MASK_AAAAAAAA]".toList) 0).1).dec
        (((Scrubber.build ⟨[], [], []⟩ ["foo".toList]
          (fun _ => "[MASK_AAAAAAAA]".toList) 0).1).enc "a foo b".toList) =
      "a foo b".toList :=
  ⟨by decide, by decide, by decide,
    claim1_roundtrip _ _ (by decide) (by decide) (by decide)⟩

/-- Claim C2: for every mapping and text of the shape `A ++ m ++ B` with `m`
a well-formed token, mask leaves `m` byte-for-byte unchanged between the
independently transformed surroundings — it is never re-substituted or
partially consumed, even when a mapped word's text occurs inside the token's
hex body (the mapping is arbitrary here, so in particular that case). -/
theorem claim2_token_noninterference (s : Scrubber) (A B m : List Char)
    (hm : isMaskTok m = true) :
    s.enc (A ++ m ++ B) = s.enc A ++ m ++ s.enc B := by
  rw [List.append_assoc, enc_append_tok s hm A B]
  simp [List.append_assoc]

/-- Witness for C2: the word `A` is mapped, and the token `[MASK_AAAAAAAA]`
has `A`s all over its hex body; it still passes through mask unchanged. -/
theorem claim2_witness :
    isMaskTok ("[MASK_AAAAAAAA]".toList) = true ∧
    (⟨[("A".toList, "[MASK_0BADF00D]".toList)],
      [("[MASK_0BADF00D]".toList, "A".toList)], []⟩ : Scrubber).enc
        ("A".toList ++ "[MASK_AAAAAAAA]".toList ++ "A".toList) =
      (⟨[("A".toList, "[MASK_0BADF00D]".toList)],
        [("[MASK_0BADF00D]".toList, "A".toList)], []⟩ : Scrubber).enc "A".toList ++
        "[MASK_AAAAAAAA]".toList ++
        (⟨[("A".toList, "[MASK_0BADF00D]".toList)],
          [("[MASK_0BADF00D]".toList, "A".toList)], []⟩ : Scrubber).enc "A".toList :=
  ⟨by decide, claim2_token_noninterference _ _ _ _ (by decide)⟩

/-- Claim C3: when a mapped word `b` is the whole (token-free) text, mask
yields exactly `b`'s token: in the length-descending alternation no longer
word can match, and among words of `b`'s length only `b` itself does — so in
particular with both `A` and `AB` mapped, `mask("AB")` is the single token
of `AB`. -/
theorem claim3_longest_match (s : Scrubber) (b t : List Char)
    (hb : s.mapping.lookup b = some t)
    (hne : b ≠ [])
    (hkeys : s.mapping.all (fun p => !(p.1 == [])) = true)
    (hnotok : splitMasks b = (b, [])) :
    s.enc b = t := by
  have hM : s.mapping ≠ [] := by
    intro he
    rw [he] at hb
    simp [List.lookup] at hb
  have hwsne : ∀ w ∈ sortLenDesc (s.mapping.map Prod.fst), w ≠ [] := by
    intro w hw
    obtain ⟨p, hp, hpe⟩ := List.mem_map.1 (mem_sortLenDesc.1 hw)
    have := List.all_eq_true.1 hkeys p hp
    simp only [Bool.not_eq_true', beq_eq_false_iff_ne, ne_eq] at this
    rw [← hpe]
    exact this
  rw [enc_eq hM, hnotok]
  simp only [List.map_nil, List.flatten_nil, List.append_nil]
  match b, hne, hb, hnotok with
  | c :: rest, _, hb, hnotok =>
    have hsorted := pairwise_sortLenDesc (s.mapping.map Prod.fst)
    have hbmem : (c :: rest) ∈ sortLenDesc (s.mapping.map Prod.fst) :=
      mem_sortLenDesc.2 (List.mem_map.2 ⟨(c :: rest, t), lookup_mem hb, rfl⟩)
    have hfind : findMatch (sortLenDesc (s.mapping.map Prod.fst)) (c :: rest) =
        some (c :: rest) := find_len_sorted hsorted hbmem
    rw [subWords_cons_found _ hfind (by simp)]
    have hl : lookupD s.mapping (c :: rest) (c :: rest) = t := by simp [lookupD, hb]
    rw [hl, show List.drop (c :: rest).length (c :: rest) = [] from List.drop_length _,
      subWords_nil_of _ hwsne, List.append_nil]

/-- Witness for C3 at the claim's own example shape: words `A` and `AB`
both mapped, `mask("AB")` is the token of `AB`. -/
theorem claim3_witness :
    (⟨[("A".toList, "[MASK_00000001]".toList), ("AB".toList, "[MASK_00000002]".toList)],
      [("[MASK_00000001]".toList, "A".toList), ("[MASK_00000002]".toList, "AB".toList)],
      []⟩ : Scrubber).mapping.lookup "AB".toList = some "[MASK_00000002]".toList ∧
    (⟨[("A".toList, "[MASK_00000001]".toList), ("AB".toList, "[MASK_00000002]".toList)],
      [("[MASK_00000001]".toList, "A".toList), ("[MASK_00000002]".toList, "AB".toList)],
      []⟩ : Scrubber).enc "AB".toList = "[MASK_00000002]".toList :=
  ⟨by decide,
    claim3_longest_match _ "AB".toList "[MASK_00000002]".toList
      (by decide) (by decide) (by decide) (by decide)⟩

/-- Claim C4: unmask replaces a well-formed token that is a key of the
reverse map by its mapped word, leaves a well-formed token absent from the
reverse map verbatim, and (being a total function) never raises on any
input. -/
theorem claim4_unmask_tolerant (s : Scrubber) (A B m : List Char)
    (hm : isMaskTok m = true) :
    (∀ w, s.reverse.lookup m = some w →
      s.dec (A ++ m ++ B) = s.dec A ++ w ++ s.dec B) ∧
    (s.reverse.lookup m = none →
      s.dec (A ++ m ++ B) = s.dec A ++ m ++ s.dec B) := by
  constructor
  · intro w hw
    rw [List.append_assoc, Scrubber.dec, decodeText_append_tok s.reverse hm A B]
    simp [lookupD, hw, Scrubber.dec, List.append_assoc]
  · intro hw
    rw [List.append_assoc, Scrubber.dec, decodeText_append_tok s.reverse hm A B]
    simp [lookupD, hw, Scrubber.dec, List.append_assoc]

/-- Witness for C4: a known token is decoded to its word, an unknown
well-formed token passes through unchanged. -/
theorem claim4_witness :
    isMaskTok ("[MASK_00000002]".toList) = true ∧
    (⟨[], [("[MASK_00000002]".toList, "AB".toList)], []⟩ : Scrubber).dec
        ("x".toList ++ "[MASK_00000002]".toList ++ "y".toList) =
      (⟨[], [("[MASK_00000002]".toList, "AB".toList)], []⟩ : Scrubber).dec "x".toList ++
        "AB".toList ++
        (⟨[], [("[MASK_00000002]".toList, "AB".toList)], []⟩ : Scrubber).dec "y".toList ∧
    (⟨[], [("[MASK_00000002]".toList, "AB".toList)], []⟩ : Scrubber).dec
        ("x".toList ++ "[MASK_0000000F]".toList ++ "y".toList) =
      (⟨[], [("[MASK_00000002]".toList, "AB".toList)], []⟩ : Scrubber).dec "x".toList ++
        "[MASK_0000000F]".toList ++
        (⟨[], [("[MASK_00000002]".toList, "AB".toList)], []⟩ : Scrubber).dec "y".toList :=
  ⟨by decide,
    (claim4_unmask_tolerant _ "x".toList "y".toList _ (by decide)).1
      "AB".toList (by decide),
    (claim4_unmask_tolerant _ "x".toList "y".toList _ (by decide)).2 (by decide)⟩

/-! ## Idempotence of `Scrubber.build` -/

theorem keyMem_append {β : Type} (l1 l2 : List (List Char × β)) (k : List Char) :
    keyMem (l1 ++ l2) k = (keyMem l1 k || keyMem l2 k) := by
  simp [keyMem, List.any_append]

theorem build_keyMem_mono :
    ∀ {words : List (List Char)} {g : Nat → List Char} {n : Nat} {s : Scrubber}
      {k : List Char}, keyMem s.mapping k = true →
      keyMem ((Scrubber.build s words g n).1).mapping k = true := by
  intro words
  induction words with
  | nil => intro g n s k h; exact h
  | cons w ws ih =>
    intro g n s k h
    simp only [Scrubber.build]
    by_cases hc : trimChars w ≠ [] ∧ keyMem s.mapping (trimChars w) = false
    · rw [if_pos hc]
      apply ih
      rw [keyMem_append, h]
      rfl
    · rw [if_neg hc]
      exact ih h

theorem build_inserts :
    ∀ {words : List (List Char)} {g : Nat → List Char} {n : Nat} {s : Scrubber}
      {w : List Char}, w ∈ words → trimChars w ≠ [] →
      keyMem ((Scrubber.build s words g n).1).mapping (trimChars w) = true := by
  intro words
  induction words with
  | nil => intro g n s w hw _; simp at hw
  | cons w0 ws ih =>
    intro g n s w hw htr
    simp only [Scrubber.build]
    rcases List.mem_cons.1 hw with rfl | hw'
    · by_cases hc : trimChars w ≠ [] ∧ keyMem s.mapping (trimChars w) = false
      · rw [if_pos hc]
        apply build_keyMem_mono
        rw [keyMem_append, Bool.or_eq_true]
        right
        simp [keyMem]
      · rw [if_neg hc]
        apply build_keyMem_mono
        rcases not_and_or.1 hc with hc' | hc'
        · exact absurd htr (by simpa using hc')
        · simpa using hc'
    · by_cases hc : trimChars w0 ≠ [] ∧ keyMem s.mapping (trimChars w0) = false
      · rw [if_pos hc]
        exact ih hw' htr
      · rw [if_neg hc]
        exact ih hw' htr

theorem build_nop :
    ∀ {words : List (List Char)} {g : Nat → List Char} {n : Nat} {s : Scrubber},
      (∀ w ∈ words, trimChars w = [] ∨ keyMem s.mapping (trimChars w) = true) →
      Scrubber.build s words g n = (s, n) := by
  intro words
  induction words with
  | nil => intro g n s _; rfl
  | cons w0 ws ih =>
    intro g n s h
    have h0 := h w0 (List.mem_cons_self _ _)
    simp only [Scrubber.build]
    rw [if_neg ?_]
    · exact ih (fun w hw => h w (List.mem_cons_of_mem _ hw))
    · rcases h0 with h0 | h0
      · intro hc
        exact hc.1 h0
      · intro hc
        rw [h0] at hc
        exact absurd hc.2 (by simp)

theorem build_lookup_mono :
    ∀ {words : List (List Char)} {g : Nat → List Char} {n : Nat} {s : Scrubber}
      {w t : List Char}, s.mapping.lookup w = some t →
      ((Scrubber.build s words g n).1).mapping.lookup w = some t := by
  intro words
  induction words with
  | nil => intro g n s w t h; exact h
  | cons w0 ws ih =>
    intro g n s w t h
    simp only [Scrubber.build]
    by_cases hc : trimChars w0 ≠ [] ∧ keyMem s.mapping (trimChars w0) = false
    · rw [if_pos hc]
      exact ih (lookup_append_some h)
    · rw [if_neg hc]
      exact ih h

/-- Claim C5: running `build` (the spec's `extend`) twice over the same word
list yields exactly the state of a single run — the second run draws no
token (its counter comes back untouched) and changes nothing — and words
already present as keys keep their existing token through any run. -/
theorem claim5_extend_idempotent (s : Scrubber) (words : List (List Char))
    (g g2 : Nat → List Char) (n n2 : Nat) :
    Scrubber.build (Scrubber.build s words g n).1 words g2 n2 =
      ((Scrubber.build s words g n).1, n2) ∧
    ∀ w t, s.mapping.lookup w = some t →
      ((Scrubber.build s words g n).1).mapping.lookup w = some t := by
  constructor
  · apply build_nop
    intro w hw
    by_cases htr : trimChars w = []
    · exact Or.inl htr
    · exact Or.inr (build_inserts hw htr)
  · intro w t h
    exact build_lookup_mono h

/-- Witness for C5: a second `build` over `{a, b}` (with `a` already mapped)
is the identity, and `a` keeps its pre-existing token. -/
theorem claim5_witness :
    Scrubber.build
        (Scrubber.build
          ⟨[("a".toList, "[MASK_00000009]".toList)],
            [("[MASK_00000009]".toList, "a".toList)], []⟩
          ["a".toList, "b".toList] (fun _ => "[MASK_00000000]".toList) 0).1
        ["a".toList, "b".toList] (fun _ => "[MASK_00000001]".toList) 5 =
      ((Scrubber.build
          ⟨[("a".toList, "[MASK_00000009]".toList)],
            [("[MASK_00000009]".toList, "a".toList)], []⟩
          ["a".toList, "b".toList] (fun _ => "[MASK_00000000]".toList) 0).1, 5) ∧
    ((Scrubber.build
        ⟨[("a".toList, "[MASK_00000009]".toList)],
          [("[MASK_00000009]".toList, "a".toList)], []⟩
        ["a".toList, "b".toList] (fun _ => "[MASK_00000000]".toList) 0).1).mapping.lookup
      "a".toList = some "[MASK_00000009]".toList :=
  ⟨(claim5_extend_idempotent _ _ _ _ _ _).1,
    (claim5_extend_idempotent
      ⟨[("a".toList, "[MASK_00000009]".toList)],
        [("[MASK_00000009]".toList, "a".toList)], []⟩
      ["a".toList, "b".toList] (fun _ => "[MASK_00000000]".toList)
      (fun _ => "[MASK_00000001]".toList) 0 5).2
      "a".toList "[MASK_00000009]".toList (by decide)⟩

/-! ## `dict.update` and snapshot load/save -/

theorem lookup_append_none {β : Type} :
    ∀ {l1 l2 : List (List Char × β)} {k : List Char},
      l1.lookup k = none → (l1 ++ l2).lookup k = l2.lookup k := by
  intro l1
  induction l1 with
  | nil => intro l2 k _; rfl
  | cons p rest ih =>
    intro l2 k h
    obtain ⟨k0, v0⟩ := p
    rw [List.lookup_cons] at h
    rw [List.cons_append, List.lookup_cons]
    cases hk : (k == k0) with
    | true =>
      rw [hk] at h
      exact absurd h (by simp)
    | false =>
      rw [hk] at h
      exact ih h

theorem lookup_none_of_not_keyMem {β : Type} :
    ∀ {l : List (List Char × β)} {k : List Char},
      keyMem l k = false → l.lookup k = none := by
  intro l
  induction l with
  | nil => intro k _; rfl
  | cons p rest ih =>
    intro k h
    obtain ⟨k0, v0⟩ := p
    simp only [keyMem, List.any_cons, Bool.or_eq_false_iff] at h
    rw [List.lookup_cons]
    have hk : (k == k0) = false := by
      cases hkk : (k == k0) with
      | true =>
        have := eq_of_beq hkk
        subst this
        rw [beq_self_eq_true] at h
        exact absurd h.1 (by simp)
      | false => rfl
    rw [hk]
    exact ih h.2

theorem lookup_map_upd {β : Type} (k : List Char) (v : β) {k' : List Char}
    (hne : k' ≠ k) :
    ∀ (m : List (List Char × β)),
      (m.map (fun p => if p.1 == k then (k, v) else p)).lookup k' = m.lookup k' := by
  intro m
  induction m with
  | nil => rfl
  | cons p rest ih =>
    obtain ⟨k0, v0⟩ := p
    simp only [List.map_cons]
    by_cases hk : (k0 == k) = true
    · rw [if_pos hk]
      have h0 : k0 = k := eq_of_beq hk
      subst h0
      rw [List.lookup_cons, List.lookup_cons,
        show (k' == k0) = false from beq_eq_false_iff_ne.2 hne]
      exact ih
    · rw [if_neg hk]
      rw [List.lookup_cons, List.lookup_cons]
      cases hk' : (k' == k0) with
      | true => rfl
      | false => exact ih

theorem lookup_updA_self {β : Type} (m : List (List Char × β)) (k : List Char)
    (v : β) : (updA m k v).lookup k = some v := by
  rw [updA]
  by_cases h : keyMem m k = true
  · rw [if_pos h]
    induction m with
    | nil => simp [keyMem] at h
    | cons p rest ih =>
      obtain ⟨k0, v0⟩ := p
      simp only [List.map_cons]
      by_cases hk : (k0 == k) = true
      · rw [if_pos hk, List.lookup_cons, beq_self_eq_true]
      · rw [if_neg hk, List.lookup_cons]
        have hkk : (k == k0) = false := by
          cases hkk : (k == k0) with
          | true =>
            have := eq_of_beq hkk
            subst this
            rw [beq_self_eq_true] at hk
            exact absurd rfl hk
          | false => rfl
        rw [hkk]
        apply ih
        simp only [keyMem, List.any_cons, Bool.or_eq_true] at h
        rcases h with h | h
        · exact absurd h hk
        · exact h
  · rw [if_neg h]
    rw [lookup_append_none (lookup_none_of_not_keyMem (Bool.not_eq_true _ ▸ h))]
    rw [List.lookup_cons, beq_self_eq_true]

theorem lookup_updA_other {β : Type} (m : List (List Char × β)) (k : List Char)
    (v : β) {k' : List Char} (hne : k' ≠ k) :
    (updA m k v).lookup k' = m.lookup k' := by
  rw [updA]
  by_cases h : keyMem m k = true
  · rw [if_pos h]
    exact lookup_map_upd k v hne m
  · rw [if_neg h]
    cases hl : m.lookup k' with
    | some w => exact lookup_append_some hl
    | none =>
      rw [lookup_append_none hl, List.lookup_cons,
        show (k' == k) = false from beq_eq_false_iff_ne.2 hne]
      rfl

theorem updJFields_lookup_not :
    ∀ {adds : List (List Char × J)} {m : List (List Char × J)} {k : List Char},
      keyMem adds k = false → (updJFields m adds).lookup k = m.lookup k := by
  intro adds
  induction adds with
  | nil => intro m k _; rfl
  | cons q rest ih =>
    intro m k h
    obtain ⟨k0, v0⟩ := q
    simp only [keyMem, List.any_cons, Bool.or_eq_false_iff] at h
    have hne : k ≠ k0 := by
      intro he
      subst he
      rw [beq_self_eq_true] at h
      exact absurd h.1 (by simp)
    show (updJFields (updA m k0 v0) rest).lookup k = m.lookup k
    rw [ih h.2, lookup_updA_other _ _ _ hne]

theorem updJFields_lookup_mem :
    ∀ {adds : List (List Char × J)} {m : List (List Char × J)} {k : List Char}
      {v : J}, (adds.map Prod.fst).Nodup → adds.lookup k = some v →
      (updJFields m adds).lookup k = some v := by
  intro adds
  induction adds with
  | nil => intro m k v _ h; simp [List.lookup] at h
  | cons q rest ih =>
    intro m k v hnd h
    obtain ⟨k0, v0⟩ := q
    simp only [List.map_cons, List.nodup_cons] at hnd
    rw [List.lookup_cons] at h
    show (updJFields (updA m k0 v0) rest).lookup k = some v
    cases hk : (k == k0) with
    | true =>
      rw [hk] at h
      have hkk : k = k0 := eq_of_beq hk
      subst hkk
      have hv : v0 = v := by
        have h' : some v0 = some v := h
        simpa using h'
      subst hv
      have hnm : keyMem rest k = false := by
        cases hm : keyMem rest k with
        | false => rfl
        | true =>
          obtain ⟨v', hv'⟩ := lookup_isSome_of_keyMem hm
          exact absurd (List.mem_map.2 ⟨(k, v'), lookup_mem hv', rfl⟩) hnd.1
      rw [updJFields_lookup_not hnm, lookup_updA_self]
    | false =>
      rw [hk] at h
      exact ih hnd.2 h

theorem updJFields_push :
    ∀ (adds : List (List Char × J)) (acc : List (List Char × J)) (k : List Char)
      (v : J), (∀ p ∈ adds, p.1 ≠ k) →
      updJFields ((k, v) :: acc) adds = (k, v) :: updJFields acc adds := by
  intro adds
  induction adds with
  | nil => intro acc k v _; rfl
  | cons q rest ih =>
    intro acc k v h
    obtain ⟨k1, v1⟩ := q
    have hne : k1 ≠ k := h (k1, v1) (List.mem_cons_self _ _)
    show updJFields (updA ((k, v) :: acc) k1 v1) rest =
      (k, v) :: updJFields (updA acc k1 v1) rest
    rw [show updA ((k, v) :: acc) k1 v1 = (k, v) :: updA acc k1 v1 from ?_]
    · exact ih _ _ _ (fun p hp => h p (List.mem_cons_of_mem _ hp))
    · rw [updA, updA]
      have hkm : keyMem ((k, v) :: acc) k1 = keyMem acc k1 := by
        simp only [keyMem, List.any_cons]
        rw [show (((k, v) : List Char × J).1 == k1) = false from
          beq_eq_false_iff_ne.2 (Ne.symm hne)]
        rfl
      rw [hkm]
      by_cases hm : keyMem acc k1 = true
      · rw [if_pos hm, if_pos hm, List.map_cons]
        rw [show (if ((k, v) : List Char × J).1 == k1 then (k1, v1)
            else ((k, v) : List Char × J)) = (k, v) from ?_]
        rw [if_neg (by rw [show (((k, v) : List Char × J).1 == k1) = false from
          beq_eq_false_iff_ne.2 (Ne.symm hne)]; exact Bool.false_ne_true)]
      · rw [if_neg hm, if_neg hm]
        rfl

theorem updJFields_nil_nodup :
    ∀ {l : List (List Char × J)}, (l.map Prod.fst).Nodup → updJFields [] l = l := by
  intro l
  induction l with
  | nil => intro _; rfl
  | cons q rest ih =>
    intro hnd
    obtain ⟨k, v⟩ := q
    simp only [List.map_cons, List.nodup_cons] at hnd
    show updJFields (updA [] k v) rest = (k, v) :: rest
    rw [show updA [] k v = [(k, v)] from rfl,
      updJFields_push rest [] k v ?_, ih hnd.2]
    intro p hp he
    exact hnd.1 (List.mem_map.2 ⟨p, hp, he⟩)

/-- Claim C6: loading the snapshot JSON written by `Scrubber.save` into a
fresh empty store succeeds and reconstructs both directions of the bijection
exactly (string values arriving as JSON strings). -/
theorem claim6_snapshot_roundtrip (s : Scrubber)
    (hm : (s.mapping.map Prod.fst).Nodup)
    (hr : (s.reverse.map Prod.fst).Nodup) :
    loadJ ⟨[], []⟩ (saveJson s) =
      (⟨s.mapping.map (fun p => (p.1, J.str p.2)),
        s.reverse.map (fun p => (p.1, J.str p.2))⟩, none) := by
  have hload : loadJ ⟨[], []⟩ (saveJson s) =
      (⟨updJFields [] (s.mapping.map (fun p => (p.1, J.str p.2))),
        updJFields [] (s.reverse.map (fun p => (p.1, J.str p.2)))⟩, none) := rfl
  rw [hload,
    updJFields_nil_nodup (by
      rw [List.map_map]
      exact hm),
    updJFields_nil_nodup (by
      rw [List.map_map]
      exact hr)]

/-- Witness for C6 at a concrete one-entry bijection. -/
theorem claim6_witness :
    ((⟨[("a".toList, "[MASK_00000001]".toList)],
        [("[MASK_00000001]".toList, "a".toList)], []⟩ : Scrubber).mapping.map
      Prod.fst).Nodup ∧
    loadJ ⟨[], []⟩ (saveJson
        ⟨[("a".toList, "[MASK_00000001]".toList)],
          [("[MASK_00000001]".toList, "a".toList)], []⟩) =
      (⟨[("a".toList, J.str "[MASK_00000001]".toList)],
        [("[MASK_00000001]".toList, J.str "a".toList)]⟩, none) :=
  ⟨by decide,
    claim6_snapshot_roundtrip
      ⟨[("a".toList, "[MASK_00000001]".toList)],
        [("[MASK_00000001]".toList, "a".toList)], []⟩
      (by decide) (by decide)⟩

/-- Claim C8, counterexample to "fails exactly when the snapshot is not a
valid serialized mapping structure": the JSON object `{"oops": {}}` is not a
valid snapshot per the spec's shape (§6: an object with a `mapping` and a
`reverse` key), yet `load` accepts it without error, merging nothing. -/
theorem claim8_counterexample :
    validSnapshotSpec (J.obj [("oops".toList, J.obj [])]) = false ∧
    (loadJ ⟨[], []⟩ (J.obj [("oops".toList, J.obj [])])).2 = none := by
  exact ⟨by decide, rfl⟩

/-- Claim C8 (amended): `load` raises an error whenever the snapshot's top
level is not a JSON object (there is no dedicated MalformedMapping class —
the built-in exception propagates), but it performs no structural validation
beyond that: an object carrying `mapping`/`reverse` sub-objects is merged as
a union — snapshot entries are added or overwrite their keys, and existing
entries with other keys are kept, never discarded. -/
theorem claim8_load (st : StoreJ) (dm dr : List (List Char × J))
    (hdm : (dm.map Prod.fst).Nodup) :
    ((loadJ st (J.obj [("mapping".toList, J.obj dm),
        ("reverse".toList, J.obj dr)])).2 = none ∧
      (∀ k v, dm.lookup k = some v →
        ((loadJ st (J.obj [("mapping".toList, J.obj dm),
          ("reverse".toList, J.obj dr)])).1).mapping.lookup k = some v) ∧
      (∀ k, keyMem dm k = false →
        ((loadJ st (J.obj [("mapping".toList, J.obj dm),
          ("reverse".toList, J.obj dr)])).1).mapping.lookup k =
          st.mapping.lookup k)) ∧
    (∀ j : J, (∀ fields, j ≠ J.obj fields) → (loadJ st j).2 ≠ none) := by
  have hload : loadJ st (J.obj [("mapping".toList, J.obj dm),
      ("reverse".toList, J.obj dr)]) =
      (⟨updJFields st.mapping dm, updJFields st.reverse dr⟩, none) := rfl
  refine ⟨⟨by rw [hload], ?_, ?_⟩, ?_⟩
  · intro k v hk
    rw [hload]
    exact updJFields_lookup_mem hdm hk
  · intro k hk
    rw [hload]
    exact updJFields_lookup_not hk
  · intro j hj
    match j with
    | J.null => simp [loadJ]
    | J.num n => simp [loadJ]
    | J.str cs => simp [loadJ]
    | J.arr l => simp [loadJ]
    | J.obj fields => exact absurd rfl (hj fields)

/-- Witness for C8 (amended): merging `{"a": t1}` into a store already
holding `b` keeps `b` and adds `a`; a top-level JSON array is rejected. -/
theorem claim8_witness :
    (([("a".toList, J.str "t1".toList)].map (Prod.fst (β := J))).Nodup ∧
      [("a".toList, J.str "t1".toList)].lookup "a".toList =
        some (J.str "t1".toList) ∧
      keyMem [("a".toList, J.str "t1".toList)] "b".toList = false) ∧
    ((loadJ ⟨[("b".toList, J.str "t0".toList)], []⟩
        (J.obj [("mapping".toList, J.obj [("a".toList, J.str "t1".toList)]),
          ("reverse".toList, J.obj [])])).2 = none ∧
      ((loadJ ⟨[("b".toList, J.str "t0".toList)], []⟩
        (J.obj [("mapping".toList, J.obj [("a".toList, J.str "t1".toList)]),
          ("reverse".toList, J.obj [])])).1).mapping.lookup "a".toList =
        some (J.str "t1".toList) ∧
      ((loadJ ⟨[("b".toList, J.str "t0".toList)], []⟩
        (J.obj [("mapping".toList, J.obj [("a".toList, J.str "t1".toList)]),
          ("reverse".toList, J.obj [])])).1).mapping.lookup "b".toList =
        (⟨[("b".toList, J.str "t0".toList)], []⟩ : StoreJ).mapping.lookup
          "b".toList ∧
      (loadJ ⟨[("b".toList, J.str "t0".toList)], []⟩ (J.arr [])).2 ≠ none) := by
  refine ⟨⟨?_, rfl, rfl⟩, ?_, ?_, ?_, ?_⟩
  · simp
  · exact (claim8_load ⟨[("b".toList, J.str "t0".toList)], []⟩
      [("a".toList, J.str "t1".toList)] [] (by simp)).1.1
  · exact (claim8_load ⟨[("b".toList, J.str "t0".toList)], []⟩
      [("a".toList, J.str "t1".toList)] [] (by simp)).1.2.1
      "a".toList (J.str "t1".toList) rfl
  · exact (claim8_load ⟨[("b".toList, J.str "t0".toList)], []⟩
      [("a".toList, J.str "t1".toList)] [] (by simp)).1.2.2
      "b".toList rfl
  · exact (claim8_load ⟨[("b".toList, J.str "t0".toList)], []⟩
      [("a".toList, J.str "t1".toList)] [] (by simp)).2
      (J.arr []) (fun fields h => J.noConfusion h)

/-! ## The batch orchestrator -/

set_option maxHeartbeats 1000000 in
theorem processOp_ok_shape {st : SState} {src : List Char} {mode : Mode}
    {out : List Char} {mp : Option (List Char)} {st' : SState}
    (h : processOp st src mode = Except.ok (out, mp, st')) :
    out = dstOf src mode ∧ mp = mpOf src mode := by
  cases mode with
  | enc =>
    simp only [processOp] at h
    cases hl : st.fs.lookup src with
    | none => rw [hl] at h; exact absurd h (by simp)
    | some d0 =>
      rw [hl] at h
      simp only at h
      split at h
      · cases d0 with
        | broken msg => exact absurd h (by simp)
        | blocks bs =>
          simp only [Except.ok.injEq, Prod.mk.injEq] at h
          exact ⟨h.1.symm, h.2.1.symm⟩
      · split at h
        · exact absurd h (by simp)
        · exact absurd h (by simp)
  | dec =>
    simp only [processOp] at h
    cases hl : st.fs.lookup src with
    | none => rw [hl] at h; exact absurd h (by simp)
    | some d0 =>
      rw [hl] at h
      simp only at h
      split at h
      · cases d0 with
        | broken msg => exact absurd h (by simp)
        | blocks bs =>
          simp only [Except.ok.injEq, Prod.mk.injEq] at h
          exact ⟨h.1.symm, h.2.1.symm⟩
      · split at h
        · exact absurd h (by simp)
        · exact absurd h (by simp)

theorem batchGo_inputs (mode : Mode) :
    ∀ (files : List (List Char)) (st : SState),
      ((batchGo mode st files).1).map Outcome.input = files := by
  intro files
  induction files with
  | nil => intro st; rfl
  | cons f rest ih =>
    intro st
    simp only [batchGo]
    cases hp : processOp st f mode with
    | ok r =>
      obtain ⟨o, mp, st'⟩ := r
      simp only [List.map_cons, ih]
    | error e =>
      simp only [List.map_cons, ih]

theorem batchGo_success_shape (mode : Mode) :
    ∀ (files : List (List Char)) (st : SState),
      ∀ r ∈ (batchGo mode st files).1, r.err = none →
        r.output = some (dstOf r.input mode) ∧ r.mapPath = mpOf r.input mode := by
  intro files
  induction files with
  | nil => intro st r hr; simp [batchGo] at hr
  | cons f rest ih =>
    intro st r hr herr
    simp only [batchGo] at hr
    cases hp : processOp st f mode with
    | ok q =>
      obtain ⟨o, mp, st'⟩ := q
      rw [hp] at hr
      simp only at hr
      rcases List.mem_cons.1 hr with rfl | hr'
      · have hs := processOp_ok_shape hp
        constructor
        · show some o = some (dstOf f mode)
          rw [hs.1]
        · show mp = mpOf f mode
          rw [hs.2]
      · exact ih st' r hr' herr
    | error e =>
      rw [hp] at hr
      simp only at hr
      rcases List.mem_cons.1 hr with rfl | hr'
      · exact absurd herr (by simp)
      · exact ih st r hr' herr

theorem willSucceedB_true_elim {st0fs : List (List Char × Doc)} {f : List Char}
    (hw : willSucceedB st0fs f = true) :
    ∃ bs, st0fs.lookup f = some (Doc.blocks bs) ∧
      SUPPORTED_EXT.contains ((splitExtCs f).2.map Char.toLower) = true := by
  unfold willSucceedB at hw
  cases hl0 : st0fs.lookup f with
  | none => rw [hl0] at hw; exact Bool.noConfusion hw
  | some d0 =>
    rw [hl0] at hw
    cases d0 with
    | broken m => exact Bool.noConfusion hw
    | blocks bs => exact ⟨bs, rfl, hw⟩

set_option maxHeartbeats 1000000 in
theorem processOp_eq_blocks {st : SState} {f : List Char} {bs : List (List Char)}
    (mode : Mode) (hfl : st.fs.lookup f = some (Doc.blocks bs))
    (hcont : SUPPORTED_EXT.contains ((splitExtCs f).2.map Char.toLower) = true) :
    processOp st f mode = Except.ok (dstOf f mode, mpOf f mode,
      ⟨(match mode with
        | Mode.enc => { st.scrub with
            json_paths := st.scrub.json_paths ++ [mapPathOf (dstOf f Mode.enc)] }
        | Mode.dec => st.scrub),
       updA st.fs (dstOf f mode) (Doc.blocks (bs.map (transformFn st.scrub mode))),
       (match mode with
        | Mode.enc => updA st.snapshots (mapPathOf (dstOf f Mode.enc)) (saveJson st.scrub)
        | Mode.dec => st.snapshots)⟩) := by
  cases mode with
  | enc =>
    simp only [processOp, hfl]
    rw [if_pos hcont]
    rfl
  | dec =>
    simp only [processOp, hfl]
    rw [if_pos hcont]
    rfl

set_option maxHeartbeats 1000000 in
theorem processOp_eq_err (mode : Mode) {st : SState}
    {st0fs : List (List Char × Doc)} {f : List Char}
    (hag : st.fs.lookup f = st0fs.lookup f)
    (hw : willSucceedB st0fs f = false) :
    ∃ e, processOp st f mode = Except.error e := by
  unfold willSucceedB at hw
  cases hl0 : st0fs.lookup f with
  | none =>
    exact ⟨"FileNotFoundError:".toList ++ f, by simp only [processOp, hag, hl0]⟩
  | some d0 =>
    rw [hl0] at hw
    cases d0 with
    | broken msg =>
      by_cases hcont : SUPPORTED_EXT.contains ((splitExtCs f).2.map Char.toLower) = true
      · exact ⟨msg, by simp only [processOp, hag, hl0]; rw [if_pos hcont]⟩
      · by_cases hleg : LEGACY_EXT.contains ((splitExtCs f).2.map Char.toLower) = true
        · exact ⟨_, by simp only [processOp, hag, hl0]; rw [if_neg hcont, if_pos hleg]⟩
        · exact ⟨_, by simp only [processOp, hag, hl0]; rw [if_neg hcont, if_neg hleg]⟩
    | blocks bs =>
      have hcont : SUPPORTED_EXT.contains ((splitExtCs f).2.map Char.toLower) = false := hw
      by_cases hleg : LEGACY_EXT.contains ((splitExtCs f).2.map Char.toLower) = true
      · exact ⟨_, by
          simp only [processOp, hag, hl0]
          rw [if_neg (by rw [hcont]; exact Bool.false_ne_true), if_pos hleg]⟩
      · exact ⟨_, by
          simp only [processOp, hag, hl0]
          rw [if_neg (by rw [hcont]; exact Bool.false_ne_true), if_neg hleg]⟩

/-- Per-file isolation invariant of the batch loop: as long as no input path
collides with an output path, each file's outcome is decided by the initial
document store alone — a success for files that will succeed, an error tuple
`(input, None, error, None)` for files that will fail. -/
theorem batchGo_isolation (st0fs : List (List Char × Doc)) (mode : Mode)
    (P : List (List Char)) :
    ∀ (files : List (List Char)) (st : SState),
      (∀ f ∈ files, dstOf f mode ∈ P) →
      (∀ f ∈ files, f ∉ P) →
      (∀ p, p ∉ P → st.fs.lookup p = st0fs.lookup p) →
      List.Forall₂ (fun f (r : Outcome) =>
        r.input = f ∧ r.err.isSome = !willSucceedB st0fs f)
        files (batchGo mode st files).1 := by
  intro files
  induction files with
  | nil => intro st _ _ _; exact List.Forall₂.nil
  | cons f rest ih =>
    intro st hP hnP hag
    have hagf : st.fs.lookup f = st0fs.lookup f :=
      hag f (hnP f (List.mem_cons_self _ _))
    simp only [batchGo]
    cases hwsb : willSucceedB st0fs f with
    | true =>
      obtain ⟨bs, hl0, hcont⟩ := willSucceedB_true_elim hwsb
      have heq := processOp_eq_blocks mode (by rw [hagf, hl0]) hcont
      rw [heq]
      refine List.Forall₂.cons ⟨rfl, by rw [hwsb]; rfl⟩ ?_
      apply ih
      · exact fun f' hf' => hP f' (List.mem_cons_of_mem _ hf')
      · exact fun f' hf' => hnP f' (List.mem_cons_of_mem _ hf')
      · intro p hp
        have hpne : p ≠ dstOf f mode :=
          fun he => hp (he ▸ hP f (List.mem_cons_self _ _))
        show (updA st.fs (dstOf f mode)
          (Doc.blocks (bs.map (transformFn st.scrub mode)))).lookup p =
          st0fs.lookup p
        rw [lookup_updA_other _ _ _ hpne]
        exact hag p hp
    | false =>
      obtain ⟨e, heq⟩ := processOp_eq_err mode hagf hwsb
      rw [heq]
      refine List.Forall₂.cons ⟨rfl, by rw [hwsb]; rfl⟩ ?_
      apply ih
      · exact fun f' hf' => hP f' (List.mem_cons_of_mem _ hf')
      · exact fun f' hf' => hnP f' (List.mem_cons_of_mem _ hf')
      · exact hag

theorem forall2_countP {α β : Type} {R : α → β → Prop} {p : β → Bool}
    {q : α → Bool} :
    ∀ {l1 : List α} {l2 : List β}, List.Forall₂ R l1 l2 →
      (∀ a b, R a b → p b = q a) → l2.countP p = l1.countP q := by
  intro l1 l2 h
  induction h with
  | nil => intro _; rfl
  | cons hr hrest ih =>
    intro himp
    rw [List.countP_cons, List.countP_cons, ih himp, himp _ _ hr]

theorem forall2_mem_right {α β : Type} {R : α → β → Prop} :
    ∀ {l1 : List α} {l2 : List β}, List.Forall₂ R l1 l2 →
      ∀ b ∈ l2, ∃ a ∈ l1, R a b := by
  intro l1 l2 h
  induction h with
  | nil => intro b hb; simp at hb
  | cons hr hrest ih =>
    intro b hb
    rcases List.mem_cons.1 hb with rfl | hb'
    · exact ⟨_, List.mem_cons_self _ _, hr⟩
    · obtain ⟨a, ha, hra⟩ := ih b hb'
      exact ⟨a, List.mem_cons_of_mem _ ha, hra⟩

/-- Claim C10: the orchestrator returns exactly one outcome per input file,
in input order; a successful outcome is `(input, dst, None, mp)` where `dst`
is the mode-suffixed output path and `mp` the persisted snapshot path in
mask mode and `None` in unmask mode. -/
theorem claim10_batch_shape (st : SState) (files words : List (List Char))
    (mode : Mode) (g : Nat → List Char) (n : Nat) :
    ((batchOp st files words mode g n).1).map Outcome.input = files ∧
    ∀ r ∈ (batchOp st files words mode g n).1, r.err = none →
      r.output = some (dstOf r.input mode) ∧ r.mapPath = mpOf r.input mode := by
  cases mode with
  | enc =>
    exact ⟨batchGo_inputs Mode.enc files _,
      fun r hr herr => batchGo_success_shape Mode.enc files _ r hr herr⟩
  | dec =>
    exact ⟨batchGo_inputs Mode.dec files _,
      fun r hr herr => batchGo_success_shape Mode.dec files _ r hr herr⟩

/-- Witness for C10: a two-file batch (one file missing) yields outcomes in
input order, and the successful outcome carries the derived output path and
snapshot path. -/
theorem claim10_witness :
    ((batchOp ⟨⟨[], [], []⟩, [("a.txt".toList, Doc.blocks ["x".toList])], []⟩
        ["a.txt".toList, "b.txt".toList] ["x".toList] Mode.enc
        (fun _ => "[MASK_00000000]".toList) 0).1).map Outcome.input =
      ["a.txt".toList, "b.txt".toList] ∧
    ((⟨"a.txt".toList, some (dstOf "a.txt".toList Mode.enc), none,
        mpOf "a.txt".toList Mode.enc⟩ : Outcome).output =
      some (dstOf "a.txt".toList Mode.enc) ∧
      (⟨"a.txt".toList, some (dstOf "a.txt".toList Mode.enc), none,
        mpOf "a.txt".toList Mode.enc⟩ : Outcome).mapPath =
        mpOf "a.txt".toList Mode.enc) :=
  ⟨(claim10_batch_shape ⟨⟨[], [], []⟩,
      [("a.txt".toList, Doc.blocks ["x".toList])], []⟩
      ["a.txt".toList, "b.txt".toList] ["x".toList] Mode.enc
      (fun _ => "[MASK_00000000]".toList) 0).1,
   (claim10_batch_shape ⟨⟨[], [], []⟩,
      [("a.txt".toList, Doc.blocks ["x".toList])], []⟩
      ["a.txt".toList, "b.txt".toList] ["x".toList] Mode.enc
      (fun _ => "[MASK_00000000]".toList) 0).2
      ⟨"a.txt".toList, some (dstOf "a.txt".toList Mode.enc), none,
        mpOf "a.txt".toList Mode.enc⟩ (by decide) (by decide)⟩

/-- Claim C7: with one failing entry among the input files (and no input
path colliding with an output path), the batch records exactly one failure
tuple and one success per other file, and no successful outcome's input is
the failed file. -/
theorem claim7_batch_isolation (st : SState) (F1 F2 : List (List Char))
    (bad : List Char) (words : List (List Char)) (mode : Mode)
    (g : Nat → List Char) (n : Nat)
    (hgood : (F1 ++ F2).all (willSucceedB st.fs) = true)
    (hbad : willSucceedB st.fs bad = false)
    (hsep : (F1 ++ bad :: F2).all (fun f =>
      (F1 ++ bad :: F2).all (fun g2 => !(dstOf g2 mode == f))) = true) :
    ((batchOp st (F1 ++ bad :: F2) words mode g n).1.filter
        (fun r => r.err.isSome)).length = 1 ∧
    ((batchOp st (F1 ++ bad :: F2) words mode g n).1.filter
        (fun r => r.err.isNone)).length = F1.length + F2.length ∧
    ∀ r ∈ (batchOp st (F1 ++ bad :: F2) words mode g n).1,
      r.err = none → r.input ≠ bad := by
  have hgood' : ∀ f ∈ F1 ++ F2, willSucceedB st.fs f = true := List.all_eq_true.1 hgood
  obtain ⟨st1, hbg1, hbgfs⟩ : ∃ st1 : SState,
      (batchOp st (F1 ++ bad :: F2) words mode g n).1 =
        (batchGo mode st1 (F1 ++ bad :: F2)).1 ∧ st1.fs = st.fs := by
    cases mode with
    | enc => exact ⟨{ st with scrub := (st.scrub.build words g n).1 }, rfl, rfl⟩
    | dec => exact ⟨st, rfl, rfl⟩
  have h2 : List.Forall₂ (fun f (r : Outcome) =>
      r.input = f ∧ r.err.isSome = !willSucceedB st.fs f)
      (F1 ++ bad :: F2) (batchGo mode st1 (F1 ++ bad :: F2)).1 := by
    apply batchGo_isolation st.fs mode
      ((F1 ++ bad :: F2).map (fun f => dstOf f mode))
    · exact fun f hf => List.mem_map_of_mem _ hf
    · intro f hf hfP
      obtain ⟨f', hf', he⟩ := List.mem_map.1 hfP
      have h1 := List.all_eq_true.1 (List.all_eq_true.1 hsep f hf) f' hf'
      rw [he] at h1
      simp at h1
    · intro p _
      rw [hbgfs]
  rw [hbg1]
  have hcount1 : ((batchGo mode st1 (F1 ++ bad :: F2)).1).countP
      (fun r => r.err.isSome) =
      (F1 ++ bad :: F2).countP (fun f => !willSucceedB st.fs f) :=
    forall2_countP h2 (fun a b hab => hab.2)
  have hcount2 : ((batchGo mode st1 (F1 ++ bad :: F2)).1).countP
      (fun r => r.err.isNone) =
      (F1 ++ bad :: F2).countP (fun f => willSucceedB st.fs f) := by
    apply forall2_countP h2
    intro a b hab
    have : b.err.isNone = !b.err.isSome := by cases b.err <;> rfl
    rw [this, hab.2, Bool.not_not]
  refine ⟨?_, ?_, ?_⟩
  · rw [← List.countP_eq_length_filter, hcount1, List.countP_append,
      List.countP_cons]
    have hF1 : F1.countP (fun f => !willSucceedB st.fs f) = 0 :=
      List.countP_eq_zero.2 (fun f hf => by
        rw [hgood' f (List.mem_append_left _ hf)]
        simp)
    have hF2 : F2.countP (fun f => !willSucceedB st.fs f) = 0 :=
      List.countP_eq_zero.2 (fun f hf => by
        rw [hgood' f (List.mem_append_right _ hf)]
        simp)
    rw [hF1, hF2, hbad]
    rfl
  · rw [← List.countP_eq_length_filter, hcount2, List.countP_append,
      List.countP_cons]
    have hF1 : F1.countP (fun f => willSucceedB st.fs f) = F1.length :=
      List.countP_eq_length.2 (fun f hf => hgood' f (List.mem_append_left _ hf))
    have hF2 : F2.countP (fun f => willSucceedB st.fs f) = F2.length :=
      List.countP_eq_length.2 (fun f hf => hgood' f (List.mem_append_right _ hf))
    rw [hF1, hF2, hbad]
    rfl
  · intro r hr herr
    obtain ⟨a, ha, hra⟩ := forall2_mem_right h2 r hr
    intro he
    have hws : willSucceedB st.fs a = true := by
      have h3 := hra.2
      rw [herr] at h3
      cases hwa : willSucceedB st.fs a with
      | true => rfl
      | false => rw [hwa] at h3; exact Bool.noConfusion h3
    have hab : a = bad := by rw [← hra.1, he]
    rw [hab] at hws
    rw [hws] at hbad
    exact Bool.noConfusion hbad

/-- Witness for C7: files `a.txt` (present), `b.txt` (missing), `c.txt`
(present); the batch has one failure and two successes, none of them
`b.txt`. -/
theorem claim7_witness :
    (["a.txt".toList, "c.txt".toList].all
      (willSucceedB [("a.txt".toList, Doc.blocks ["x".toList]),
        ("c.txt".toList, Doc.blocks ["y".toList])]) = true ∧
     willSucceedB [("a.txt".toList, Doc.blocks ["x".toList]),
        ("c.txt".toList, Doc.blocks ["y".toList])] "b.txt".toList = false) ∧
    ((batchOp ⟨⟨[], [], []⟩,
        [("a.txt".toList, Doc.blocks ["x".toList]),
          ("c.txt".toList, Doc.blocks ["y".toList])], []⟩
        ["a.txt".toList, "b.txt".toList, "c.txt".toList] ["x".toList] Mode.enc
        (fun _ => "[MASK_00000000]".toList) 0).1.filter
      (fun r => r.err.isSome)).length = 1 ∧
    ((batchOp ⟨⟨[], [], []⟩,
        [("a.txt".toList, Doc.blocks ["x".toList]),
          ("c.txt".toList, Doc.blocks ["y".toList])], []⟩
        ["a.txt".toList, "b.txt".toList, "c.txt".toList] ["x".toList] Mode.enc
        (fun _ => "[MASK_00000000]".toList) 0).1.filter
      (fun r => r.err.isNone)).length = 2 :=
  ⟨⟨by decide, by decide⟩,
    (claim7_batch_isolation ⟨⟨[], [], []⟩,
      [("a.txt".toList, Doc.blocks ["x".toList]),
        ("c.txt".toList, Doc.blocks ["y".toList])], []⟩
      ["a.txt".toList] ["c.txt".toList] "b.txt".toList ["x".toList] Mode.enc
      (fun _ => "[MASK_00000000]".toList) 0
      (by decide) (by decide) (by decide)).1,
    (claim7_batch_isolation ⟨⟨[], [], []⟩,
      [("a.txt".toList, Doc.blocks ["x".toList]),
        ("c.txt".toList, Doc.blocks ["y".toList])], []⟩
      ["a.txt".toList] ["c.txt".toList] "b.txt".toList ["x".toList] Mode.enc
      (fun _ => "[MASK_00000000]".toList) 0
      (by decide) (by decide) (by decide)).2.1⟩

/-- Claim C9, counterexample: asking the orchestrator (`Scrubber.batch`) to
run in mask mode over one readable file with an empty word list is not
rejected — it processes the file and returns a normal per-file success
outcome. -/
theorem claim9_counterexample :
    (batchOp ⟨⟨[], [], []⟩, [("a.txt".toList, Doc.blocks ["hello".toList])], []⟩
        ["a.txt".toList] [] Mode.enc (fun _ => "[MASK_00000000]".toList) 0).1 =
      [⟨"a.txt".toList, some (dstOf "a.txt".toList Mode.enc), none,
        some (mapPathOf (dstOf "a.txt".toList Mode.enc))⟩] := by
  decide

/-- Claim C9 (amended): `Scrubber.batch` performs no empty-word-list
precondition check: in mask mode with an empty word list it extends the
mapping with nothing and still produces one per-file outcome per input file;
the rejection of an empty word list happens in the UI layer (`App._run`)
before the orchestrator is invoked. -/
theorem claim9_empty_words (st : SState) (files : List (List Char))
    (g : Nat → List Char) (n : Nat) (s : Scrubber) :
    Scrubber.build s [] g n = (s, n) ∧
    ((batchOp st files [] Mode.enc g n).1).map Outcome.input = files :=
  ⟨rfl, batchGo_inputs Mode.enc files _⟩

end Maskforge
